import Mathlib

/-!
Verification development for the Gitta repository (grammar induction using
template trees).  The repository ships only its README and a demo notebook
under src/; the engine itself (template-tree builder, slot merger, pruner,
grammar materializer and generator) is modelled from the specification, and
the concrete grammars recorded in the README and the notebook outputs are
transcribed as data.
-/

namespace Gitta

/-! ## Tokenizer

Modelled from the spec: the tokenizer is an external collaborator that
splits a string into an ordered token sequence and joins tokens back with
the inverse joining rule.  We model it as splitting on single spaces at the
character level, with the join/split round trip proved below. -/

/-- Split a character list on the space character.  Always returns at least
one (possibly empty) word. -/
def splitChars : List Char → List (List Char)
  | [] => [[]]
  | c :: cs =>
    match splitChars cs with
    | [] => [[]]
    | w :: ws => if c = ' ' then [] :: w :: ws else (c :: w) :: ws

/-- Join character words with single spaces. -/
def joinChars : List (List Char) → List Char
  | [] => []
  | [w] => w
  | w :: ws => w ++ ' ' :: joinChars (ws)

theorem splitChars_ne_nil (cs : List Char) : splitChars cs ≠ [] := by
  cases cs with
  | nil => simp [splitChars]
  | cons c cs =>
    simp only [splitChars]
    cases h : splitChars cs with
    | nil => simp
    | cons w ws =>
      by_cases hc : c = ' ' <;> simp [hc]

theorem joinChars_splitChars (cs : List Char) : joinChars (splitChars cs) = cs := by
  induction cs with
  | nil => simp [splitChars, joinChars]
  | cons c cs ih =>
    simp only [splitChars]
    cases h : splitChars cs with
    | nil => exact absurd h (splitChars_ne_nil cs)
    | cons w ws =>
      rw [h] at ih
      by_cases hc : c = ' '
      · subst hc
        simp only [if_pos rfl, joinChars]
        cases ws with
        | nil => simpa [joinChars] using ih
        | cons w2 ws2 => simpa [joinChars] using ih
      · simp only [if_neg hc]
        cases ws with
        | nil => simpa [joinChars] using ih
        | cons w2 ws2 => simpa [joinChars] using ih

/-- Tokenize a string: split it on spaces. -/
def splitTokens (s : String) : List String :=
  (splitChars s.data).map (fun w => ⟨w⟩)

/-- Join tokens with single spaces (inverse of `splitTokens`). -/
def joinTokens (ts : List String) : String :=
  ⟨joinChars (ts.map String.data)⟩

theorem joinTokens_splitTokens (s : String) : joinTokens (splitTokens s) = s := by
  cases s with
  | mk data =>
    simp only [splitTokens, joinTokens, List.map_map]
    have : (fun w : List Char => (⟨w⟩ : String).data) = fun w => w := by
      funext w; rfl
    simp only [Function.comp_def]
    rw [show ((splitChars data).map fun w => (String.mk w).data) = splitChars data by
      simp]
    rw [joinChars_splitChars]

/-! ## Grammar data model

Modelled from the spec: a Grammar maps nonterminal names (with a
distinguished root name) to lists of productions; a production is an
ordered sequence of elements, each either a literal token or a nonterminal
reference. -/

/-- One element of a production: a literal token or a nonterminal
reference. -/
inductive GSym where
  | lit : String → GSym
  | ref : String → GSym
deriving DecidableEq, Repr

/-- A production is an ordered sequence of literal tokens and nonterminal
references. -/
abbrev Production := List GSym

/-- A grammar: an ordered association list from nonterminal names to their
production lists, together with the distinguished root name. -/
structure Grammar where
  rules : List (String × List Production)
  root : String
deriving DecidableEq, Repr

/-- The names defined by a grammar, in rule order. -/
def Grammar.names (g : Grammar) : List String := g.rules.map Prod.fst

/-- The productions a grammar assigns to a name (empty when undefined). -/
def Grammar.prods (g : Grammar) (n : String) : List Production :=
  match g.rules.find? (fun r => r.fst = n) with
  | some r => r.snd
  | none => []

/-- Errors of the engine, modelled from the spec error taxonomy. -/
inductive GErr where
  | invalidInput
  | configuration
  | structural
deriving DecidableEq, Repr

/-! ## Generator

Modelled from the spec: `generate_all` enumerates the full cross product of
production choices at every nonterminal reachable from the root,
deduplicated into a set of distinct strings.  Expansion is given a fuel
bound of one more than the number of rules; an undefined nonterminal
reference or fuel exhaustion (which a reachable reference cycle forces)
yields a StructuralError instead of looping. -/

/-- Sequence a list of fallible computations, failing on the first error. -/
def exceptMapM (f : α → Except GErr β) : List α → Except GErr (List β)
  | [] => .ok []
  | a :: l => do
    let b ← f a
    let bs ← exceptMapM f l
    .ok (b :: bs)

/-- Expand one production given an expander for nonterminal references,
producing all token sequences (cross product over the elements). -/
def expandProdWith (f : String → Except GErr (List (List String))) :
    Production → Except GErr (List (List String))
  | [] => .ok [[]]
  | .lit s :: r => (expandProdWith f r).map (List.map (fun t => s :: t))
  | .ref n :: r => do
    let xs ← f n
    let ys ← expandProdWith f r
    .ok (xs.flatMap (fun x => ys.map (fun t => x ++ t)))

/-- Expand a nonterminal to all its token sequences, with fuel. -/
def expandNT (g : Grammar) : Nat → String → Except GErr (List (List String))
  | 0, _ => .error .structural
  | fuel + 1, n =>
    if n ∈ g.names then
      (exceptMapM (expandProdWith (expandNT g fuel)) (g.prods n)).map List.flatten
    else .error .structural

/-- All token sequences generated from the root. -/
def genSeqs (g : Grammar) : Except GErr (List (List String)) :=
  expandNT g (g.rules.length + 1) g.root

/-- The deduplicated list of all strings the grammar generates
(`generate_all`). -/
def genAll (g : Grammar) : Except GErr (List String) :=
  (genSeqs g).map (fun seqs => (seqs.map joinTokens).dedup)

/-! ## Template tree builder

Modelled from the spec: examples are tokenized and aligned into groups; in
each group the longest common leading and trailing tokens become fixed
structure and the divergent middle spans become one slot whose fillers are
the middle spans of the examples.  The grouping strategy (left open by the
spec) is fixed here deterministically: examples are grouped by their first
token, in order of first appearance.  Slot names are generated freshly per
group index. -/

/-- Longest common leading run of two token sequences. -/
def commonPre2 : List String → List String → List String
  | a :: as, b :: bs => if a = b then a :: commonPre2 as bs else []
  | _, _ => []

/-- Longest common leading run of a family of token sequences. -/
def commonPre : List (List String) → List String
  | [] => []
  | x :: xs => xs.foldl commonPre2 x

/-- Longest common trailing run of a family of token sequences. -/
def commonSuf (xss : List (List String)) : List String :=
  (commonPre (xss.map List.reverse)).reverse

/-- The relation: `p` is a leading segment of `x`. -/
def IsPre (p x : List String) : Prop := ∃ t, p ++ t = x

theorem isPre_refl (x : List String) : IsPre x x := ⟨[], by simp⟩

theorem isPre_trans {a b c : List String} (h1 : IsPre a b) (h2 : IsPre b c) :
    IsPre a c := by
  obtain ⟨t1, rfl⟩ := h1
  obtain ⟨t2, rfl⟩ := h2
  exact ⟨t1 ++ t2, by simp⟩

theorem commonPre2_isPre_left (a b : List String) : IsPre (commonPre2 a b) a := by
  induction a generalizing b with
  | nil => cases b <;> exact ⟨[], rfl⟩
  | cons x as ih =>
    cases b with
    | nil => exact ⟨x :: as, rfl⟩
    | cons y bs =>
      simp only [commonPre2]
      by_cases h : x = y
      · simp only [if_pos h]
        obtain ⟨t, ht⟩ := ih bs
        exact ⟨t, by simp [ht]⟩
      · simp only [if_neg h]
        exact ⟨x :: as, rfl⟩

theorem commonPre2_isPre_right (a b : List String) : IsPre (commonPre2 a b) b := by
  induction a generalizing b with
  | nil => cases b with
    | nil => exact ⟨[], rfl⟩
    | cons y bs => exact ⟨y :: bs, rfl⟩
  | cons x as ih =>
    cases b with
    | nil => exact ⟨[], rfl⟩
    | cons y bs =>
      simp only [commonPre2]
      by_cases h : x = y
      · simp only [if_pos h]
        obtain ⟨t, ht⟩ := ih bs
        exact ⟨t, by simp [ht, h]⟩
      · simp only [if_neg h]
        exact ⟨y :: bs, rfl⟩

theorem commonPre_isPre (xss : List (List String)) :
    ∀ x ∈ xss, IsPre (commonPre xss) x := by
  intro x hx
  cases xss with
  | nil => cases hx
  | cons x0 xs =>
    simp only [commonPre]
    have main : ∀ (l : List (List String)) (acc : List String),
        (∀ y, y = acc ∨ y ∈ l → IsPre (l.foldl commonPre2 acc) y) := by
      intro l
      induction l with
      | nil =>
        intro acc y hy
        rcases hy with rfl | h
        · exact isPre_refl _
        · cases h
      | cons z zs ih =>
        intro acc y hy
        simp only [List.foldl_cons]
        have hfold : IsPre (zs.foldl commonPre2 (commonPre2 acc z)) (commonPre2 acc z) :=
          ih (commonPre2 acc z) _ (Or.inl rfl)
        rcases hy with rfl | h
        · exact isPre_trans hfold (commonPre2_isPre_left y z)
        · rcases List.mem_cons.mp h with rfl | h2
          · exact isPre_trans hfold (commonPre2_isPre_right acc y)
          · exact ih (commonPre2 acc z) y (Or.inr h2)
    rcases List.mem_cons.mp hx with rfl | h
    · exact main xs x x (Or.inl rfl)
    · exact main xs x0 x (Or.inr h)

/-- The relation: `p` is a trailing segment of `x`. -/
def IsSuf (p x : List String) : Prop := ∃ t, t ++ p = x

theorem commonSuf_isSuf (xss : List (List String)) :
    ∀ x ∈ xss, IsSuf (commonSuf xss) x := by
  intro x hx
  obtain ⟨t, ht⟩ := commonPre_isPre (xss.map List.reverse) x.reverse
    (List.mem_map_of_mem List.reverse hx)
  refine ⟨t.reverse, ?_⟩
  have := congrArg List.reverse ht
  simpa [commonSuf] using this

/-! ## Slots and the slot merger

Modelled from the spec: a slot is a named set of fillers (token
sequences).  Two slots are eligible to merge when the Jaccard-style
relative overlap of their filler string sets reaches the configured
threshold; merging unions the filler sets, replaces both slots by the
shared one, and rewrites references.  With `use_best_merge_candidate` the
pair with the globally highest overlap is merged first (ties broken by the
canonical pair order); otherwise the first eligible pair in canonical
order is merged. -/

/-- The intermediate slot table: names with their filler token sequences. -/
abbrev Slots := List (String × List (List String))

/-- The filler string set of a slot (fillers joined back to strings). -/
def fillF (fs : List (List String)) : Finset String :=
  (fs.map joinTokens).toFinset

/-- Jaccard-style relative overlap of two filler string sets. -/
def jaccard (A B : Finset String) : ℚ :=
  mkRat ((A ∩ B).card : Int) ((A ∪ B).card)

/-- Merge eligibility: the relative overlap reaches the threshold. -/
def eligible (θ : ℚ) (A B : Finset String) : Prop := θ ≤ jaccard A B

instance (θ : ℚ) (A B : Finset String) : Decidable (eligible θ A B) :=
  inferInstanceAs (Decidable (θ ≤ jaccard A B))

/-- Look up the fillers of a slot by name. -/
def lookupFillers (sl : Slots) (n : String) : List (List String) :=
  match sl.find? (fun x => x.fst = n) with
  | some x => x.snd
  | none => []

/-- All index pairs `(i, j)` with `i < j < n`, in canonical scan order. -/
def allPairs (n : Nat) : List (Nat × Nat) :=
  (List.range n).flatMap
    (fun i => ((List.range n).filter (fun j => i < j)).map (fun j => (i, j)))

/-- The overlap score of the slot pair at the given indices. -/
def scoreAt (sl : Slots) (ij : Nat × Nat) : ℚ :=
  jaccard (fillF (((sl.get? ij.fst).getD ("", [])).snd))
    (fillF (((sl.get? ij.snd).getD ("", [])).snd))

/-- The candidate pair with the globally highest overlap score (ties broken
by canonical order); independent of the threshold. -/
def bestCand (sl : Slots) : Option ((Nat × Nat) × ℚ) :=
  (allPairs sl.length).foldl
    (fun acc ij =>
      match acc with
      | none => some (ij, scoreAt sl ij)
      | some (ij0, s0) =>
        if s0 < scoreAt sl ij then some (ij, scoreAt sl ij) else some (ij0, s0))
    none

/-- The first pair in canonical order whose score reaches the threshold. -/
def firstElig (θ : ℚ) (sl : Slots) : Option (Nat × Nat) :=
  (allPairs sl.length).find? (fun ij => decide (θ ≤ scoreAt sl ij))

/-- The pair the merger picks next, per strategy. -/
def pickPair (θ : ℚ) (best : Bool) (sl : Slots) : Option (Nat × Nat) :=
  if best then
    match bestCand sl with
    | some (ij, s) => if θ ≤ s then some ij else none
    | none => none
  else firstElig θ sl

/-- Rename one nonterminal reference. -/
def renameSym (old new : String) : GSym → GSym
  | .lit s => .lit s
  | .ref n => .ref (if n = old then new else n)

/-- Rename a nonterminal reference throughout a production. -/
def renameProd (old new : String) (p : Production) : Production :=
  p.map (renameSym old new)

/-- Union the fillers `fj` into the slot named `ni` and drop the slot
named `nj`. -/
def mergeSlotTable (sl : Slots) (ni nj : String) (fj : List (List String)) :
    Slots :=
  (sl.map (fun x => if x.fst = ni then (x.fst, (x.snd ++ fj).dedup) else x)).filter
    (fun x => x.fst ≠ nj)

/-- Merge the slots at indices `i < j`: union the fillers into slot `i`,
drop slot `j`, and rewrite references in the root productions. -/
def mergeAt (rp : List Production) (sl : Slots) (i j : Nat) :
    List Production × Slots :=
  let ni := ((sl.get? i).getD ("", [])).fst
  let nj := ((sl.get? j).getD ("", [])).fst
  let fj := ((sl.get? j).getD ("", [])).snd
  (rp.map (renameProd nj ni), mergeSlotTable sl ni nj fj)

/-- The merge loop: repeatedly merge the picked pair until no pair is
eligible or the fuel runs out, returning the final state and the number of
merges performed. -/
def mergeLoop (θ : ℚ) (best : Bool) :
    Nat → List Production → Slots → List Production × Slots × Nat
  | 0, rp, sl => (rp, sl, 0)
  | fuel + 1, rp, sl =>
    match pickPair θ best sl with
    | none => (rp, sl, 0)
    | some (i, j) =>
      let s := mergeAt rp sl i j
      let r := mergeLoop θ best fuel s.fst s.snd
      (r.fst, r.snd.fst, r.snd.snd + 1)

/-! ## Configuration and validation

Modelled from the spec §6 and §7: recognized options, with fail-fast
validation raising InvalidInputError for an empty dataset (or empty
elements where not permitted) and ConfigurationError for a threshold
outside the unit interval or a non-positive depth bound, before any tree
construction. -/

/-- Configuration options of the induction engine. -/
structure Config where
  relative_similarity_threshold : ℚ
  allow_empty_string : Bool
  max_depth : Int
  use_best_merge_candidate : Bool
  prune_redundant : Bool
deriving DecidableEq, Repr

/-- The default configuration used by the model. -/
def defaultConfig : Config :=
  ⟨mkRat 1 10, true, 10, true, true⟩

/-- A configuration is valid when the threshold lies in the unit interval
and the depth bound is a positive integer. -/
def ValidConfig (cfg : Config) : Prop :=
  0 ≤ cfg.relative_similarity_threshold ∧ cfg.relative_similarity_threshold ≤ 1 ∧
    0 < cfg.max_depth

instance (cfg : Config) : Decidable (ValidConfig cfg) :=
  inferInstanceAs (Decidable (_ ∧ _ ∧ _))

/-- Fail-fast validation, in the spec order: input errors, then
configuration errors. -/
def validate (D : List String) (cfg : Config) : Except GErr Unit :=
  if D = [] then .error .invalidInput
  else if cfg.allow_empty_string = false ∧ "" ∈ D then .error .invalidInput
  else if ¬ (0 ≤ cfg.relative_similarity_threshold ∧
      cfg.relative_similarity_threshold ≤ 1) then .error .configuration
  else if ¬ (0 < cfg.max_depth) then .error .configuration
  else .ok ()

/-! ## Builder -/

/-- An injective fresh slot name for a group index. -/
def slotName (idx : Nat) : String := ⟨'S' :: List.replicate idx 'I'⟩

/-- Append a tokenized example to its group, keyed by its first token;
groups are kept in order of first appearance. -/
def addGroup (gs : List (String × List (List String))) (ts : List String) :
    List (String × List (List String)) :=
  let key := ts.headD ""
  if (gs.find? (fun g => g.fst = key)).isSome then
    gs.map (fun g => if g.fst = key then (g.fst, g.snd ++ [ts]) else g)
  else gs ++ [(key, [ts])]

/-- Tokenize the dataset and group it by first token. -/
def groupsOf (D : List String) : List (String × List (List String)) :=
  (D.map splitTokens).foldl addGroup []

/-- Align a group of at least two distinct token sequences: the longest
common leading and trailing tokens frame one slot whose fillers are the
divergent middles.  At depth bound one, or when an empty filler appears
while empty strings are not allowed, the group is kept as distinct literal
productions instead. -/
def buildGroupMulti (cfg : Config) (idx : Nat) (sd : List (List String)) :
    List Production × Slots :=
  let pre := commonPre sd
  let rest := sd.map (fun x => x.drop pre.length)
  let suf := commonSuf rest
  let mids := rest.map (fun x => x.take (x.length - suf.length))
  if cfg.max_depth = 1 ∨ (cfg.allow_empty_string = false ∧ mids.any List.isEmpty) then
    (sd.map (fun q => q.map GSym.lit), [])
  else
    ([pre.map GSym.lit ++ GSym.ref (slotName idx) :: suf.map GSym.lit],
     [(slotName idx, mids.dedup)])

/-- Build one group: identical examples collapse to one literal production;
otherwise the group is aligned by `buildGroupMulti`. -/
def buildGroup (cfg : Config) (idx : Nat) (seqs : List (List String)) :
    List Production × Slots :=
  match seqs.dedup with
  | [] => ([], [])
  | [q] => ([q.map GSym.lit], [])
  | q1 :: q2 :: qs => buildGroupMulti cfg idx (q1 :: q2 :: qs)

/-- Build all groups, numbering slots by group position. -/
def buildAll (cfg : Config) : Nat → List (String × List (List String)) →
    List Production × Slots
  | _, [] => ([], [])
  | idx, g :: gs =>
    let b := buildGroup cfg idx g.snd
    let r := buildAll cfg (idx + 1) gs
    (b.fst ++ r.fst, b.snd ++ r.snd)

/-! ## State semantics, pruner and materializer -/

/-- All token sequences one production denotes over a slot table. -/
def prodSeqsS (sl : Slots) : Production → List (List String)
  | [] => [[]]
  | .lit s :: r => (prodSeqsS sl r).map (fun t => s :: t)
  | .ref n :: r => (lookupFillers sl n).flatMap (fun x => (prodSeqsS sl r).map (fun t => x ++ t))

/-- All token sequences of a root-production list over a slot table. -/
def stateSeqs (rp : List Production) (sl : Slots) : List (List String) :=
  rp.flatMap (prodSeqsS sl)

/-- Decidable membership of every element of `xs` in `ys`. -/
def allMem (xs ys : List (List String)) : Bool :=
  xs.all (fun x => ys.any (fun y => y = x))

/-- Redundancy pruner, modelled from the spec: drop a root production when
every sequence it denotes is already denoted by the other productions that
are being kept; processed in order. -/
def pruneLoop (sl : Slots) : List Production → List Production → List Production
  | kept, [] => kept.reverse
  | kept, p :: rest =>
    if allMem (prodSeqsS sl p) (stateSeqs (kept ++ rest) sl) then
      pruneLoop sl kept rest
    else pruneLoop sl (p :: kept) rest

/-- Materialize the final state into a grammar with root name "origin". -/
def materialize (rp : List Production) (sl : Slots) : Grammar :=
  ⟨("origin", rp) :: sl.map (fun x => (x.fst, x.snd.map (List.map GSym.lit))), "origin"⟩

/-! ## The induction pipeline -/

/-- The core pipeline after validation: build, merge, prune, materialize.
Returns the grammar together with the number of merges performed. -/
def induceCore (D : List String) (cfg : Config) : Grammar × Nat :=
  let b := buildAll cfg 0 (groupsOf D)
  let m := mergeLoop cfg.relative_similarity_threshold cfg.use_best_merge_candidate
    b.snd.length b.fst b.snd
  let rp := if cfg.prune_redundant then pruneLoop m.snd.fst [] m.fst else m.fst
  (materialize rp m.snd.fst, m.snd.snd)

/-- Grammar induction with fail-fast validation
(`induce_grammar_using_template_trees`). -/
def induce (D : List String) (cfg : Config) : Except GErr Grammar := do
  let _ ← validate D cfg
  .ok (induceCore D cfg).fst

/-- The number of merges the pipeline performs (for the monotonicity
analysis). -/
def mergeCountOf (D : List String) (cfg : Config) : Nat :=
  (induceCore D cfg).snd

/-- Replace only the similarity threshold of a configuration. -/
def withThreshold (cfg : Config) (θ : ℚ) : Config :=
  { cfg with relative_similarity_threshold := θ }

/-! ## Serialization

Modelled from the spec: the serializable form maps each nonterminal name
to its list of production strings, writing a nonterminal reference with
the placeholder syntax of angle brackets around the name. -/

/-- Render one production element. -/
def symStr : GSym → String
  | .lit s => s
  | .ref n => "<" ++ n ++ ">"

/-- Render one production as a string. -/
def prodStr (p : Production) : String := joinTokens (p.map symStr)

/-- Serialize a grammar to its mapping form. -/
def toMapping (g : Grammar) : List (String × List String) :=
  g.rules.map (fun r => (r.fst, r.snd.map prodStr))

/-- Classify one token of a production string: an angle-bracketed token is
a nonterminal reference, anything else a literal. -/
def classifyTok (t : String) : GSym :=
  match t.data with
  | c :: rest =>
    if c = '<' ∧ rest.getLast? = some '>' then .ref ⟨rest.dropLast⟩ else .lit t
  | [] => .lit t

/-- Parse one production string. -/
def parseProd (s : String) : Production := (splitTokens s).map classifyTok

/-- Reconstruct a grammar from its mapping form. -/
def fromMapping (m : List (String × List String)) : Grammar :=
  ⟨m.map (fun r => (r.fst, r.snd.map parseProd)), "origin"⟩

/-- Well-formedness for serialization: root named "origin", no empty
production, literals nonempty, space free and not angle bracketed, and
reference names space free. -/
def WFsym : GSym → Prop
  | .lit s => s ≠ "" ∧ ' ' ∉ s.data ∧
      ¬(s.data.head? = some '<' ∧ s.data.getLast? = some '>')
  | .ref n => ' ' ∉ n.data

instance : DecidablePred WFsym := by
  intro e
  cases e with
  | lit s => exact inferInstanceAs (Decidable (_ ∧ _ ∧ _))
  | ref n => exact inferInstanceAs (Decidable (_ ∉ _))

/-- A grammar whose serialization round trips. -/
def WFGrammar (g : Grammar) : Prop :=
  g.root = "origin" ∧ ∀ r ∈ g.rules, ∀ p ∈ r.snd, p ≠ [] ∧ ∀ e ∈ p, WFsym e

instance (g : Grammar) : Decidable (WFGrammar g) :=
  inferInstanceAs (Decidable (_ ∧ _))

/-! ## Expansion lemmas: the two level bridge

The pipeline only ever materializes two level grammars (a root rule whose
productions reference slot rules whose productions are literal).  The
lemmas below compute `genAll` of such a grammar in terms of the direct
state semantics `stateSeqs`. -/

/-- The nonterminal references of a production. -/
def prodRefs (p : Production) : List String :=
  p.filterMap (fun e => match e with | .ref n => some n | .lit _ => none)

theorem prodRefs_ref_mem {p : Production} {n : String} (h : GSym.ref n ∈ p) :
    n ∈ prodRefs p := by
  induction p with
  | nil => cases h
  | cons e r ih =>
    rcases List.mem_cons.mp h with rfl | h2
    · simp [prodRefs]
    · cases e with
      | lit s => simpa [prodRefs] using ih h2
      | ref m =>
        simp only [prodRefs, List.filterMap_cons]
        exact List.mem_cons_of_mem m (ih h2)

theorem exceptMapM_map_ok {f : α → Except GErr β} {m : γ → α} {g : γ → β}
    (l : List γ) (h : ∀ c ∈ l, f (m c) = .ok (g c)) :
    exceptMapM f (l.map m) = .ok (l.map g) := by
  induction l with
  | nil => rfl
  | cons c l ih =>
    simp only [List.map_cons, exceptMapM, h c (List.mem_cons_self c l), bind,
      Except.bind, ih (fun c hc => h c (List.mem_cons_of_mem _ hc))]

theorem exceptMapM_ok {f : α → Except GErr β} {g : α → β}
    (l : List α) (h : ∀ a ∈ l, f a = .ok (g a)) :
    exceptMapM f l = .ok (l.map g) := by
  have := exceptMapM_map_ok (f := f) (m := id) (g := g) l (by simpa using h)
  simpa using this

theorem flatten_singletons (l : List α) :
    (l.map (fun a => [a])).flatten = l := by
  induction l with
  | nil => rfl
  | cons a l ih => simp [ih]

theorem expandProdWith_lit (f : String → Except GErr (List (List String)))
    (q : List String) : expandProdWith f (q.map GSym.lit) = .ok [q] := by
  induction q with
  | nil => rfl
  | cons s q ih => simp [expandProdWith, ih, Except.map]

theorem expandProdWith_eq_prodSeqsS {f : String → Except GErr (List (List String))}
    {sl : Slots} {p : Production}
    (h : ∀ n ∈ prodRefs p, f n = .ok (lookupFillers sl n)) :
    expandProdWith f p = .ok (prodSeqsS sl p) := by
  induction p with
  | nil => rfl
  | cons e r ih =>
    cases e with
    | lit s =>
      have hr : ∀ n ∈ prodRefs r, f n = .ok (lookupFillers sl n) := by
        intro n hn; exact h n (by simpa [prodRefs] using hn)
      simp [expandProdWith, ih hr, Except.map, prodSeqsS]
    | ref m =>
      have hm : f m = .ok (lookupFillers sl m) := h m (by simp [prodRefs])
      have hr : ∀ n ∈ prodRefs r, f n = .ok (lookupFillers sl n) := by
        intro n hn
        refine h n ?_
        simp only [prodRefs, List.filterMap_cons]
        exact List.mem_cons_of_mem m hn
      simp [expandProdWith, hm, ih hr, bind, Except.bind, prodSeqsS]

theorem lookupFillers_cons (x : String × List (List String)) (sl : Slots)
    (n : String) :
    lookupFillers (x :: sl) n = if x.fst = n then x.snd else lookupFillers sl n := by
  by_cases h : x.fst = n <;> simp [lookupFillers, List.find?_cons, h]

theorem lookupFillers_mem {sl : Slots} {n : String} {fs : List (List String)}
    (hnd : (sl.map Prod.fst).Nodup) (h : (n, fs) ∈ sl) :
    lookupFillers sl n = fs := by
  induction sl with
  | nil => cases h
  | cons x sl ih =>
    rw [List.map_cons, List.nodup_cons] at hnd
    rw [lookupFillers_cons]
    rcases List.mem_cons.mp h with rfl | h2
    · simp
    · have hx : x.fst ≠ n := by
        intro he
        exact hnd.1 (he ▸ List.mem_map.mpr ⟨(n, fs), h2, rfl⟩)
      rw [if_neg hx]
      exact ih hnd.2 h2

theorem mem_of_name_mem {sl : Slots} {n : String}
    (h : n ∈ sl.map Prod.fst) : (n, lookupFillers sl n) ∈ sl := by
  induction sl with
  | nil => cases h
  | cons x sl ih =>
    rw [lookupFillers_cons]
    by_cases hx : x.fst = n
    · rw [if_pos hx]
      have : x = (n, x.snd) := by
        cases x
        simp only at hx
        simp [hx]
      exact this ▸ List.mem_cons_self _ _
    · rw [if_neg hx]
      rcases List.mem_map.mp h with ⟨y, hy, he⟩
      rcases List.mem_cons.mp hy with rfl | h2
      · exact absurd he hx
      · exact List.mem_cons_of_mem _ (ih (List.mem_map.mpr ⟨y, h2, he⟩))

theorem find?_fst_map (G : List (List String) → List Production) (sl : Slots)
    (n : String) :
    ((sl.map (fun x => (x.fst, G x.snd))).find? (fun r => r.fst = n)) =
      (sl.find? (fun x => x.fst = n)).map (fun x => (x.fst, G x.snd)) := by
  induction sl with
  | nil => rfl
  | cons x sl ih => by_cases hx : x.fst = n <;> simp [List.find?_cons, hx, ih]

theorem prods_materialize (rp : List Production) (sl : Slots) (n : String) :
    (materialize rp sl).prods n =
      if n = "origin" then rp
      else (lookupFillers sl n).map (List.map GSym.lit) := by
  by_cases h : n = "origin"
  · subst h
    simp [materialize, Grammar.prods, List.find?_cons]
  · rw [if_neg h]
    have hdec : (decide ("origin" = n)) = false := by
      simp only [decide_eq_false_iff_not]
      intro he
      exact h he.symm
    simp only [materialize, Grammar.prods, List.find?_cons, hdec]
    rw [find?_fst_map]
    unfold lookupFillers
    cases sl.find? (fun x => x.fst = n) <;> simp

theorem names_materialize (rp : List Production) (sl : Slots) :
    (materialize rp sl).names = "origin" :: sl.map Prod.fst := by
  simp [materialize, Grammar.names]

theorem expandNT_slot {rp : List Production} {sl : Slots} {n : String}
    (horig : "origin" ∉ sl.map Prod.fst) (hn : n ∈ sl.map Prod.fst)
    (fuel : Nat) :
    expandNT (materialize rp sl) (fuel + 1) n = .ok (lookupFillers sl n) := by
  have hne : n ≠ "origin" := fun he => horig (he ▸ hn)
  have hmem : n ∈ (materialize rp sl).names := by
    rw [names_materialize]
    exact List.mem_cons_of_mem _ hn
  rw [show fuel + 1 = fuel + 1 from rfl, expandNT, if_pos hmem,
    prods_materialize, if_neg hne]
  rw [exceptMapM_map_ok (f := expandProdWith (expandNT (materialize rp sl) fuel))
    (m := List.map GSym.lit) (g := fun q => [q]) (lookupFillers sl n)
    (fun q _ => expandProdWith_lit _ q)]
  simp [Except.map, flatten_singletons]

theorem expandNT_origin {rp : List Production} {sl : Slots}
    (horig : "origin" ∉ sl.map Prod.fst)
    (hrefs : ∀ p ∈ rp, ∀ n ∈ prodRefs p, n ∈ sl.map Prod.fst) (fuel : Nat) :
    expandNT (materialize rp sl) (fuel + 2) "origin" = .ok (stateSeqs rp sl) := by
  have hmem : "origin" ∈ (materialize rp sl).names := by
    rw [names_materialize]; exact List.mem_cons_self _ _
  rw [show fuel + 2 = (fuel + 1) + 1 from rfl, expandNT, if_pos hmem,
    prods_materialize, if_pos rfl]
  rw [exceptMapM_ok (g := prodSeqsS sl) rp ?_]
  · simp [Except.map, stateSeqs, List.flatMap_def]
  · intro p hp
    refine expandProdWith_eq_prodSeqsS ?_
    intro n hn
    exact expandNT_slot horig (hrefs p hp n hn) fuel

theorem genAll_materialize {rp : List Production} {sl : Slots}
    (horig : "origin" ∉ sl.map Prod.fst)
    (hrefs : ∀ p ∈ rp, ∀ n ∈ prodRefs p, n ∈ sl.map Prod.fst) :
    genAll (materialize rp sl) = .ok (((stateSeqs rp sl).map joinTokens).dedup) := by
  have hlen : (materialize rp sl).rules.length = sl.length + 1 := by
    simp [materialize]
  have hroot : (materialize rp sl).root = "origin" := rfl
  unfold genAll genSeqs
  rw [hlen, hroot, show sl.length + 1 + 1 = sl.length + 2 from rfl,
    expandNT_origin horig hrefs sl.length]
  rfl

/-! ## State semantics lemmas -/

theorem mem_stateSeqs {rp : List Production} {sl : Slots} {ts : List String} :
    ts ∈ stateSeqs rp sl ↔ ∃ p ∈ rp, ts ∈ prodSeqsS sl p := by
  simp [stateSeqs, List.mem_flatMap]

theorem prodSeqsS_lit (sl : Slots) (q : List String) :
    prodSeqsS sl (q.map GSym.lit) = [q] := by
  induction q with
  | nil => rfl
  | cons s q ih => simp [prodSeqsS, ih]

theorem prodSeqsS_frame (sl : Slots) (a b : List String) (X : String) :
    prodSeqsS sl (a.map GSym.lit ++ GSym.ref X :: b.map GSym.lit) =
      (lookupFillers sl X).map (fun m => a ++ (m ++ b)) := by
  induction a with
  | nil =>
    simp only [List.map_nil, List.nil_append, prodSeqsS, prodSeqsS_lit]
    simp only [List.flatMap_def]
    induction lookupFillers sl X with
    | nil => rfl
    | cons m ms ihm => simp_all
  | cons s a ih =>
    simp only [List.map_cons, List.cons_append, prodSeqsS]
    rw [show (List.map GSym.lit a).append (GSym.ref X :: List.map GSym.lit b) =
      List.map GSym.lit a ++ GSym.ref X :: List.map GSym.lit b from rfl, ih,
      List.map_map]
    rfl

theorem prodSeqsS_congr {sl sl' : Slots} {p : Production}
    (h : ∀ n ∈ prodRefs p, lookupFillers sl' n = lookupFillers sl n) :
    prodSeqsS sl' p = prodSeqsS sl p := by
  induction p with
  | nil => rfl
  | cons e r ih =>
    cases e with
    | lit s =>
      have hr : ∀ n ∈ prodRefs r, lookupFillers sl' n = lookupFillers sl n := by
        intro n hn; exact h n (by simpa [prodRefs] using hn)
      simp [prodSeqsS, ih hr]
    | ref m =>
      have hm : lookupFillers sl' m = lookupFillers sl m := h m (by simp [prodRefs])
      have hr : ∀ n ∈ prodRefs r, lookupFillers sl' n = lookupFillers sl n := by
        intro n hn
        refine h n ?_
        simp only [prodRefs, List.filterMap_cons]
        exact List.mem_cons_of_mem m hn
      simp [prodSeqsS, hm, ih hr]

theorem lookup_append_left {sl1 sl2 : Slots} {n : String}
    (h : n ∈ sl1.map Prod.fst) :
    lookupFillers (sl1 ++ sl2) n = lookupFillers sl1 n := by
  induction sl1 with
  | nil => cases h
  | cons x sl ih =>
    rw [List.cons_append, lookupFillers_cons, lookupFillers_cons]
    by_cases hx : x.fst = n
    · simp [hx]
    · rw [if_neg hx, if_neg hx]
      rcases List.mem_map.mp h with ⟨y, hy, he⟩
      rcases List.mem_cons.mp hy with rfl | h2
      · exact absurd he hx
      · exact ih (List.mem_map.mpr ⟨y, h2, he⟩)

theorem lookup_append_right {sl1 sl2 : Slots} {n : String}
    (h : n ∉ sl1.map Prod.fst) :
    lookupFillers (sl1 ++ sl2) n = lookupFillers sl2 n := by
  induction sl1 with
  | nil => rfl
  | cons x sl ih =>
    rw [List.cons_append, lookupFillers_cons]
    have hx : x.fst ≠ n := by
      intro he
      exact h (List.mem_map.mpr ⟨x, List.mem_cons_self _ _, he⟩)
    rw [if_neg hx]
    exact ih (fun hm => h (by
      rcases List.mem_map.mp hm with ⟨y, hy, he⟩
      exact List.mem_map.mpr ⟨y, List.mem_cons_of_mem _ hy, he⟩))

/-! ## Builder name discipline -/

theorem slotName_inj {a b : Nat} (h : slotName a = slotName b) : a = b := by
  have hd : ('S' :: List.replicate a 'I') = ('S' :: List.replicate b 'I') :=
    congrArg String.data h
  have htl : List.replicate a 'I' = List.replicate b 'I' :=
    List.tail_eq_of_cons_eq hd
  have : (List.replicate a 'I').length = (List.replicate b 'I').length := by
    rw [htl]
  simpa using this

theorem slotName_ne_origin (k : Nat) : slotName k ≠ "origin" := by
  intro h
  have := congrArg String.data h
  simp [slotName] at this

theorem allPairs_mem {n i j : Nat} (h : (i, j) ∈ allPairs n) :
    i < j ∧ j < n := by
  simp only [allPairs, List.mem_flatMap, List.mem_map, List.mem_filter,
    List.mem_range, decide_eq_true_eq] at h
  obtain ⟨a, _, b, ⟨hbn, hab⟩, he⟩ := h
  have h1 : a = i := congrArg Prod.fst he
  have h2 : b = j := congrArg Prod.snd he
  subst h1; subst h2
  exact ⟨hab, hbn⟩

/-! ## Merge step lemmas -/

/-- The pipeline state invariant: slot names are distinct, never the root
name, and every reference in the root productions is a defined slot. -/
def StInv (rp : List Production) (sl : Slots) : Prop :=
  (sl.map Prod.fst).Nodup ∧ "origin" ∉ sl.map Prod.fst ∧
    ∀ p ∈ rp, ∀ n ∈ prodRefs p, n ∈ sl.map Prod.fst

theorem mergeSlotTable_cons (x : String × List (List String)) (sl : Slots)
    (ni nj : String) (fj : List (List String)) :
    mergeSlotTable (x :: sl) ni nj fj =
      (if x.fst = nj then [] else
        [if x.fst = ni then (x.fst, (x.snd ++ fj).dedup) else x]) ++
        mergeSlotTable sl ni nj fj := by
  by_cases hxi : x.fst = ni
  · by_cases hxj : x.fst = nj
    · have h2 : ni = nj := hxi.symm.trans hxj
      simp [mergeSlotTable, List.filter_cons, hxi, hxj, h2]
    · have h2 : ni ≠ nj := fun h => hxj (hxi.trans h)
      simp [mergeSlotTable, List.filter_cons, hxi, hxj, h2]
  · by_cases hxj : x.fst = nj
    · have h2 : nj ≠ ni := fun h => hxi (hxj.trans h)
      simp [mergeSlotTable, List.filter_cons, hxi, hxj, h2]
    · simp [mergeSlotTable, List.filter_cons, hxi, hxj]

theorem names_mergeSlotTable (sl : Slots) (ni nj : String)
    (fj : List (List String)) :
    (mergeSlotTable sl ni nj fj).map Prod.fst =
      (sl.map Prod.fst).filter (fun m => m ≠ nj) := by
  induction sl with
  | nil => rfl
  | cons x sl ih =>
    rw [mergeSlotTable_cons]
    have ih2 : (mergeSlotTable sl ni nj fj).map Prod.fst =
        (sl.map Prod.fst).filter (fun m => !decide (m = nj)) := by
      simpa [ne_eq] using ih
    by_cases hxi : x.fst = ni
    · by_cases hxj : x.fst = nj
      · have h2 : ni = nj := hxi.symm.trans hxj
        simp [List.filter_cons, hxi, hxj, h2, ih2, h2 ▸ ih2]
      · have h2 : ni ≠ nj := fun h => hxj (hxi.trans h)
        simp [List.filter_cons, hxi, hxj, h2, ih2]
    · by_cases hxj : x.fst = nj <;> simp [List.filter_cons, hxi, hxj, ih2]

theorem lookup_mergeSlotTable_other {sl : Slots} {ni nj X : String}
    {fj : List (List String)} (hi : X ≠ ni) (hj : X ≠ nj) :
    lookupFillers (mergeSlotTable sl ni nj fj) X = lookupFillers sl X := by
  induction sl with
  | nil => rfl
  | cons x sl ih =>
    rw [mergeSlotTable_cons, lookupFillers_cons]
    by_cases hxi : x.fst = ni <;> by_cases hxj : x.fst = nj
    · rw [if_pos hxj]
      rw [if_neg (fun he : x.fst = X => hj (he ▸ hxj))]
      simpa using ih
    · rw [if_neg hxj, if_pos hxi]
      simp only [List.singleton_append, lookupFillers_cons]
      rw [if_neg (show ¬ (x.fst, (x.snd ++ fj).dedup).fst = X from
        fun he => hi (he ▸ hxi))]
      rw [if_neg (fun he : x.fst = X => hi (he ▸ hxi))]
      exact ih
    · rw [if_pos hxj]
      rw [if_neg (fun he : x.fst = X => hj (he ▸ hxj))]
      simpa using ih
    · rw [if_neg hxj, if_neg hxi]
      simp only [List.singleton_append, lookupFillers_cons]
      by_cases hx : x.fst = X
      · rw [if_pos hx, if_pos hx]
      · rw [if_neg hx, if_neg hx]
        exact ih

theorem lookup_mergeSlotTable_ni {sl : Slots} {ni nj : String}
    {fj : List (List String)} (hmem : ni ∈ sl.map Prod.fst) (hne : ni ≠ nj) :
    lookupFillers (mergeSlotTable sl ni nj fj) ni =
      (lookupFillers sl ni ++ fj).dedup := by
  induction sl with
  | nil => cases hmem
  | cons x sl ih =>
    rw [mergeSlotTable_cons, lookupFillers_cons]
    have hmem2 : x.fst ≠ ni → ni ∈ sl.map Prod.fst := by
      intro hxi
      rcases List.mem_map.mp hmem with ⟨y, hy, he⟩
      rcases List.mem_cons.mp hy with rfl | h2
      · exact absurd he hxi
      · exact List.mem_map.mpr ⟨y, h2, he⟩
    by_cases hxi : x.fst = ni
    · have hxj : x.fst ≠ nj := fun he => hne (hxi ▸ he)
      rw [if_neg hxj, if_pos hxi]
      simp only [List.singleton_append, lookupFillers_cons]
      rw [if_pos hxi, if_pos hxi]
    · by_cases hxj : x.fst = nj
      · rw [if_pos hxj, if_neg hxi]
        simpa using ih (hmem2 hxi)
      · rw [if_neg hxj, if_neg hxi, if_neg hxi]
        simp only [List.singleton_append, lookupFillers_cons]
        rw [if_neg hxi]
        exact ih (hmem2 hxi)

theorem prodRefs_rename (old new : String) (p : Production) :
    prodRefs (renameProd old new p) =
      (prodRefs p).map (fun n => if n = old then new else n) := by
  induction p with
  | nil => rfl
  | cons e r ih =>
    have ih2 : (List.map (renameSym old new) r).filterMap
        (fun e => match e with | GSym.ref n => some n | GSym.lit _ => none) =
        List.map (fun n => if n = old then new else n) (prodRefs r) := by
      simpa [renameProd, prodRefs] using ih
    cases e with
    | lit s => simpa [renameProd, renameSym, prodRefs, List.filterMap_cons] using ih2
    | ref m =>
      simpa [renameProd, renameSym, prodRefs, List.filterMap_cons] using ih2

theorem prodSeqsS_merge {sl : Slots} {ni nj : String} {fj : List (List String)}
    (hni : ni ∈ sl.map Prod.fst) (hne : ni ≠ nj)
    (hfj : lookupFillers sl nj = fj) :
    ∀ {p : Production} {ts : List String}, ts ∈ prodSeqsS sl p →
      ts ∈ prodSeqsS (mergeSlotTable sl ni nj fj) (renameProd nj ni p) := by
  intro p
  induction p with
  | nil => intro ts h; exact h
  | cons e r ih =>
    intro ts h
    cases e with
    | lit s =>
      simp only [prodSeqsS, List.mem_map] at h
      obtain ⟨t, ht, rfl⟩ := h
      have hstep : renameProd nj ni (GSym.lit s :: r) =
          GSym.lit s :: renameProd nj ni r := rfl
      rw [hstep]
      simp only [prodSeqsS, List.mem_map]
      exact ⟨t, ih ht, rfl⟩
    | ref X =>
      simp only [prodSeqsS, List.mem_flatMap, List.mem_map] at h
      obtain ⟨x, hx, t, ht, rfl⟩ := h
      have hx2 : x ∈ lookupFillers (mergeSlotTable sl ni nj fj)
          (if X = nj then ni else X) := by
        by_cases hXj : X = nj
        · subst hXj
          rw [if_pos rfl, lookup_mergeSlotTable_ni hni hne]
          exact List.mem_dedup.mpr (List.mem_append_right _ (hfj ▸ hx))
        · rw [if_neg hXj]
          by_cases hXi : X = ni
          · subst hXi
            rw [lookup_mergeSlotTable_ni hni hne]
            exact List.mem_dedup.mpr (List.mem_append_left _ hx)
          · rw [lookup_mergeSlotTable_other hXi hXj]
            exact hx
      have hstep : renameProd nj ni (GSym.ref X :: r) =
          GSym.ref (if X = nj then ni else X) :: renameProd nj ni r := rfl
      rw [hstep]
      simp only [prodSeqsS, List.mem_flatMap, List.mem_map]
      exact ⟨x, hx2, t, ih ht, rfl⟩

theorem bestCand_mem {sl : Slots} {ij : Nat × Nat} {s : ℚ}
    (h : bestCand sl = some (ij, s)) : ij ∈ allPairs sl.length := by
  have main : ∀ (l : List (Nat × Nat)) (acc : Option ((Nat × Nat) × ℚ)),
      (∀ ij0 s0, acc = some (ij0, s0) → ij0 ∈ allPairs sl.length) →
      (∀ ij0 ∈ l, ij0 ∈ allPairs sl.length) →
      ∀ ij0 s0,
        (l.foldl (fun acc ij =>
          match acc with
          | none => some (ij, scoreAt sl ij)
          | some (ij1, s1) =>
            if s1 < scoreAt sl ij then some (ij, scoreAt sl ij) else some (ij1, s1))
          acc) = some (ij0, s0) → ij0 ∈ allPairs sl.length := by
    intro l
    induction l with
    | nil => intro acc hacc _ ij0 s0 hres; exact hacc ij0 s0 hres
    | cons z zs ih =>
      intro acc hacc hl ij0 s0 hres
      refine ih _ ?_ (fun y hy => hl y (List.mem_cons_of_mem _ hy)) ij0 s0 hres
      intro ij1 s1 hacc1
      cases acc with
      | none =>
        simp only at hacc1
        have : ij1 = z := by
          have := congrArg (fun o => Option.map Prod.fst o) hacc1
          simpa using this.symm
        exact this ▸ hl z (List.mem_cons_self _ _)
      | some y =>
        rcases y with ⟨ij2, s2⟩
        simp only at hacc1
        by_cases hlt : s2 < scoreAt sl z
        · rw [if_pos hlt] at hacc1
          have h3 := Option.some.inj hacc1
          have hz : z = ij1 := congrArg Prod.fst h3
          exact hz ▸ hl z (List.mem_cons_self _ _)
        · rw [if_neg hlt] at hacc1
          have h3 := Option.some.inj hacc1
          have hz : ij2 = ij1 := congrArg Prod.fst h3
          have := hacc ij2 s2 rfl
          rwa [hz] at this
  exact main (allPairs sl.length) none (by intro _ _ h2; cases h2)
    (fun y hy => hy) ij s h

theorem pickPair_false (θ : ℚ) (sl : Slots) :
    pickPair θ false sl = firstElig θ sl := rfl

theorem pickPair_true (θ : ℚ) (sl : Slots) :
    pickPair θ true sl =
      (match bestCand sl with
       | some (ij, s) => if θ ≤ s then some ij else none
       | none => none) := rfl

theorem pickPair_mem {θ : ℚ} {best : Bool} {sl : Slots} {i j : Nat}
    (h : pickPair θ best sl = some (i, j)) : (i, j) ∈ allPairs sl.length := by
  cases best with
  | false =>
    rw [pickPair_false] at h
    exact List.mem_of_find?_eq_some h
  | true =>
    rw [pickPair_true] at h
    cases hb : bestCand sl with
    | none => rw [hb] at h; cases h
    | some y =>
      rcases y with ⟨ij, s⟩
      rw [hb] at h
      simp only at h
      by_cases hle : θ ≤ s
      · rw [if_pos hle] at h
        cases h
        exact bestCand_mem hb
      · rw [if_neg hle] at h
        cases h

theorem nodup_map_fst_get_ne {sl : Slots} (h : (sl.map Prod.fst).Nodup)
    {i j : Nat} (hi : i < sl.length) (hj : j < sl.length) (hne : i ≠ j) :
    (sl.get ⟨i, hi⟩).fst ≠ (sl.get ⟨j, hj⟩).fst := by
  intro he
  have hi2 : i < (sl.map Prod.fst).length := by simpa using hi
  have hj2 : j < (sl.map Prod.fst).length := by simpa using hj
  have e1 : (sl.map Prod.fst).get ⟨i, hi2⟩ = (sl.get ⟨i, hi⟩).fst := by
    simp [List.get_map]
  have e2 : (sl.map Prod.fst).get ⟨j, hj2⟩ = (sl.get ⟨j, hj⟩).fst := by
    simp [List.get_map]
  have hget : (sl.map Prod.fst).get ⟨i, hi2⟩ = (sl.map Prod.fst).get ⟨j, hj2⟩ :=
    e1.trans (he.trans e2.symm)
  have := (List.Nodup.get_inj_iff h).mp hget
  exact hne (by simpa using this)

theorem mergeAt_step {rp : List Production} {sl : Slots} {i j : Nat}
    (hinv : StInv rp sl) (hij : (i, j) ∈ allPairs sl.length) :
    StInv (mergeAt rp sl i j).fst (mergeAt rp sl i j).snd ∧
      ∀ ts ∈ stateSeqs rp sl,
        ts ∈ stateSeqs (mergeAt rp sl i j).fst (mergeAt rp sl i j).snd := by
  obtain ⟨hij1, hj⟩ := allPairs_mem hij
  have hi : i < sl.length := hij1.trans hj
  have hgi : sl.get? i = some (sl.get ⟨i, hi⟩) := List.get?_eq_get hi
  have hgj : sl.get? j = some (sl.get ⟨j, hj⟩) := List.get?_eq_get hj
  set xi := sl.get ⟨i, hi⟩ with hxi
  set xj := sl.get ⟨j, hj⟩ with hxj
  have hne : xi.fst ≠ xj.fst :=
    nodup_map_fst_get_ne hinv.1 hi hj (Nat.ne_of_lt hij1)
  have hmi : xi.fst ∈ sl.map Prod.fst :=
    List.mem_map.mpr ⟨xi, List.get_mem sl i hi, rfl⟩
  have hmemj : (xj.fst, xj.snd) ∈ sl := by
    rw [Prod.mk.eta]
    exact List.get_mem sl j hj
  have hfj : lookupFillers sl xj.fst = xj.snd :=
    lookupFillers_mem hinv.1 hmemj
  have hunfold : mergeAt rp sl i j =
      (rp.map (renameProd xj.fst xi.fst),
        mergeSlotTable sl xi.fst xj.fst xj.snd) := by
    simp only [mergeAt, hgi, hgj, Option.getD_some]
  rw [hunfold]
  have hnames : (mergeSlotTable sl xi.fst xj.fst xj.snd).map Prod.fst =
      (sl.map Prod.fst).filter (fun m => m ≠ xj.fst) :=
    names_mergeSlotTable sl _ _ _
  refine ⟨⟨?_, ?_, ?_⟩, ?_⟩
  · rw [hnames]
    exact hinv.1.filter _
  · rw [hnames]
    intro hm
    exact hinv.2.1 (List.mem_of_mem_filter hm)
  · intro p hp n hn
    rcases List.mem_map.mp hp with ⟨q, hq, rfl⟩
    rw [prodRefs_rename] at hn
    rcases List.mem_map.mp hn with ⟨m, hm, rfl⟩
    rw [hnames]
    by_cases hmj : m = xj.fst
    · rw [if_pos hmj]
      exact List.mem_filter.mpr ⟨hmi, by simpa using hne⟩
    · rw [if_neg hmj]
      exact List.mem_filter.mpr ⟨hinv.2.2 q hq m hm, by simpa using hmj⟩
  · intro ts hts
    rcases mem_stateSeqs.mp hts with ⟨p, hp, hpts⟩
    refine mem_stateSeqs.mpr ⟨renameProd xj.fst xi.fst p,
      List.mem_map.mpr ⟨p, hp, rfl⟩, ?_⟩
    exact prodSeqsS_merge hmi hne hfj hpts

theorem mergeLoop_preserves (θ : ℚ) (best : Bool) :
    ∀ (fuel : Nat) (rp : List Production) (sl : Slots), StInv rp sl →
      StInv (mergeLoop θ best fuel rp sl).fst
          (mergeLoop θ best fuel rp sl).snd.fst ∧
        ∀ ts ∈ stateSeqs rp sl,
          ts ∈ stateSeqs (mergeLoop θ best fuel rp sl).fst
            (mergeLoop θ best fuel rp sl).snd.fst := by
  intro fuel
  induction fuel with
  | zero => intro rp sl hinv; exact ⟨hinv, fun ts hts => hts⟩
  | succ fuel ih =>
    intro rp sl hinv
    rw [mergeLoop]
    cases hpick : pickPair θ best sl with
    | none => exact ⟨hinv, fun ts hts => hts⟩
    | some ij =>
      rcases ij with ⟨i, j⟩
      have hij := pickPair_mem hpick
      obtain ⟨hstep, hcov⟩ := mergeAt_step hinv hij
      obtain ⟨hih1, hih2⟩ := ih (mergeAt rp sl i j).fst (mergeAt rp sl i j).snd hstep
      exact ⟨hih1, fun ts hts => hih2 ts (hcov ts hts)⟩

theorem mergeLoop_count_mono {θ θ' : ℚ} (hθ : θ ≤ θ') :
    ∀ (fuel : Nat) (rp : List Production) (sl : Slots),
      (mergeLoop θ' true fuel rp sl).snd.snd ≤
        (mergeLoop θ true fuel rp sl).snd.snd := by
  intro fuel
  induction fuel with
  | zero => intro rp sl; exact Nat.le_refl _
  | succ fuel ih =>
    intro rp sl
    rw [mergeLoop, mergeLoop, pickPair_true, pickPair_true]
    cases hb : bestCand sl with
    | none => exact Nat.le_refl _
    | some y =>
      rcases y with ⟨ij, s⟩
      simp only
      by_cases h2 : θ' ≤ s
      · rw [if_pos h2, if_pos (le_trans hθ h2)]
        rcases ij with ⟨i, j⟩
        simp only
        exact Nat.succ_le_succ (ih _ _)
      · rw [if_neg h2]
        by_cases h1 : θ ≤ s
        · rw [if_pos h1]
          exact Nat.zero_le _
        · rw [if_neg h1]

/-! ## Builder lemmas -/

theorem prodRefs_lit (q : List String) : prodRefs (q.map GSym.lit) = [] := by
  induction q with
  | nil => rfl
  | cons s q ih => simpa [prodRefs, List.filterMap_cons] using ih

theorem prodRefs_frame (a b : List String) (X : String) :
    prodRefs (a.map GSym.lit ++ GSym.ref X :: b.map GSym.lit) = [X] := by
  induction a with
  | nil =>
    simp only [List.map_nil, List.nil_append, prodRefs, List.filterMap_cons]
    simpa [prodRefs] using prodRefs_lit b
  | cons s a ih => simpa [prodRefs, List.filterMap_cons] using ih

theorem addGroup_mem_self (gs : List (String × List (List String)))
    (ts : List String) : ∃ g ∈ addGroup gs ts, ts ∈ g.snd := by
  unfold addGroup
  by_cases h : (gs.find? (fun g => g.fst = ts.headD "")).isSome
  · rw [if_pos h]
    obtain ⟨g0, hg0⟩ := Option.isSome_iff_exists.mp h
    have hg0mem : g0 ∈ gs := List.mem_of_find?_eq_some hg0
    have hg0key : g0.fst = ts.headD "" := by
      have := List.find?_some hg0
      simpa using this
    refine ⟨(g0.fst, g0.snd ++ [ts]), List.mem_map.mpr ⟨g0, hg0mem, ?_⟩, ?_⟩
    · rw [if_pos hg0key]
    · simp
  · rw [if_neg h]
    exact ⟨(ts.headD "", [ts]), List.mem_append_right _ (List.mem_singleton.mpr rfl),
      by simp⟩

theorem addGroup_mem_preserve {gs : List (String × List (List String))}
    {ts : List String} (ts2 : List String)
    (h : ∃ g ∈ gs, ts ∈ g.snd) : ∃ g ∈ addGroup gs ts2, ts ∈ g.snd := by
  obtain ⟨g, hg, hts⟩ := h
  unfold addGroup
  by_cases hf : (gs.find? (fun g => g.fst = ts2.headD "")).isSome
  · rw [if_pos hf]
    by_cases hk : g.fst = ts2.headD ""
    · exact ⟨(g.fst, g.snd ++ [ts2]), List.mem_map.mpr ⟨g, hg, by rw [if_pos hk]⟩,
        List.mem_append_left _ hts⟩
    · exact ⟨g, List.mem_map.mpr ⟨g, hg, by rw [if_neg hk]⟩, hts⟩
  · rw [if_neg hf]
    exact ⟨g, List.mem_append_left _ hg, hts⟩

theorem foldl_addGroup_cover :
    ∀ (l : List (List String)) (acc : List (String × List (List String)))
      (ts : List String), ((∃ g ∈ acc, ts ∈ g.snd) ∨ ts ∈ l) →
      ∃ g ∈ l.foldl addGroup acc, ts ∈ g.snd := by
  intro l
  induction l with
  | nil =>
    intro acc ts h
    rcases h with h | h
    · exact h
    · cases h
  | cons x xs ih =>
    intro acc ts h
    rw [List.foldl_cons]
    rcases h with h | h
    · exact ih _ ts (Or.inl (addGroup_mem_preserve x h))
    · rcases List.mem_cons.mp h with rfl | h2
      · exact ih _ ts (Or.inl (addGroup_mem_self acc ts))
      · exact ih _ ts (Or.inr h2)

theorem groupsOf_cover {D : List String} {s : String} (h : s ∈ D) :
    ∃ g ∈ groupsOf D, splitTokens s ∈ g.snd :=
  foldl_addGroup_cover (D.map splitTokens) [] _
    (Or.inr (List.mem_map.mpr ⟨s, h, rfl⟩))

theorem buildGroupMulti_cover {cfg : Config} {idx : Nat}
    {sd : List (List String)} {ts : List String} (hts : ts ∈ sd) :
    ts ∈ stateSeqs (buildGroupMulti cfg idx sd).fst (buildGroupMulti cfg idx sd).snd := by
  simp only [buildGroupMulti]
  set pre := commonPre sd with hpre
  set rest := sd.map (fun x => x.drop pre.length) with hrest
  set suf := commonSuf rest with hsuf
  set mids := rest.map (fun x => x.take (x.length - suf.length)) with hmids
  by_cases hbr : cfg.max_depth = 1 ∨
      (cfg.allow_empty_string = false ∧ mids.any List.isEmpty = true)
  · rw [if_pos hbr]
    refine mem_stateSeqs.mpr ⟨ts.map GSym.lit,
      List.mem_map.mpr ⟨ts, hts, rfl⟩, ?_⟩
    rw [prodSeqsS_lit]
    exact List.mem_singleton.mpr rfl
  · rw [if_neg hbr]
    obtain ⟨t, hpret⟩ := commonPre_isPre sd ts hts
    have htr : ts.drop pre.length = t := by
      rw [← hpret, List.drop_left]
    have hrmem : ts.drop pre.length ∈ rest :=
      List.mem_map.mpr ⟨ts, hts, rfl⟩
    obtain ⟨m, hsufm⟩ := commonSuf_isSuf rest (ts.drop pre.length) hrmem
    have hmidm : (ts.drop pre.length).take
        ((ts.drop pre.length).length - suf.length) = m := by
      rw [← hsufm]
      have hlen : (m ++ suf).length - suf.length = m.length := by simp
      rw [hlen, List.take_left]
    have hmmem : m ∈ mids := by
      rw [← hmidm]
      exact List.mem_map.mpr ⟨ts.drop pre.length, hrmem, rfl⟩
    refine mem_stateSeqs.mpr
      ⟨pre.map GSym.lit ++ GSym.ref (slotName idx) :: suf.map GSym.lit,
        List.mem_singleton.mpr rfl, ?_⟩
    rw [prodSeqsS_frame]
    refine List.mem_map.mpr ⟨m, ?_, ?_⟩
    · rw [lookupFillers_cons, if_pos rfl]
      exact List.mem_dedup.mpr hmmem
    · have h2 : m ++ suf = t := by rw [hsuf, hsufm, htr]
      rw [← hpret, ← hpre, h2]

theorem buildGroup_cover {cfg : Config} {idx : Nat} {seqs : List (List String)}
    {ts : List String} (h : ts ∈ seqs) :
    ts ∈ stateSeqs (buildGroup cfg idx seqs).fst (buildGroup cfg idx seqs).snd := by
  have hts : ts ∈ seqs.dedup := List.mem_dedup.mpr h
  unfold buildGroup
  cases hd : seqs.dedup with
  | nil => rw [hd] at hts; cases hts
  | cons q qtl =>
    rw [hd] at hts
    cases qtl with
    | nil =>
      have hq : ts = q := by simpa using hts
      subst hq
      simp only [stateSeqs, List.flatMap_cons, List.flatMap_nil, List.append_nil,
        prodSeqsS_lit]
      exact List.mem_singleton.mpr rfl
    | cons q2 qs => exact buildGroupMulti_cover hts

theorem buildGroupMulti_names (cfg : Config) (idx : Nat)
    (sd : List (List String)) :
    (buildGroupMulti cfg idx sd).snd.map Prod.fst = [] ∨
      (buildGroupMulti cfg idx sd).snd.map Prod.fst = [slotName idx] := by
  simp only [buildGroupMulti]
  by_cases hbr : cfg.max_depth = 1 ∨
      (cfg.allow_empty_string = false ∧
        ((sd.map (fun x => x.drop (commonPre sd).length)).map
          (fun x => x.take (x.length -
            (commonSuf (sd.map (fun x => x.drop (commonPre sd).length))).length))).any
          List.isEmpty = true)
  · rw [if_pos hbr]
    exact Or.inl rfl
  · rw [if_neg hbr]
    exact Or.inr rfl

theorem buildGroup_names (cfg : Config) (idx : Nat) (seqs : List (List String)) :
    (buildGroup cfg idx seqs).snd.map Prod.fst = [] ∨
      (buildGroup cfg idx seqs).snd.map Prod.fst = [slotName idx] := by
  unfold buildGroup
  cases seqs.dedup with
  | nil => exact Or.inl rfl
  | cons q qtl =>
    cases qtl with
    | nil => exact Or.inl rfl
    | cons q2 qs => exact buildGroupMulti_names cfg idx _

theorem buildGroupMulti_refs (cfg : Config) (idx : Nat) (sd : List (List String)) :
    ∀ p ∈ (buildGroupMulti cfg idx sd).fst, ∀ n ∈ prodRefs p,
      n ∈ (buildGroupMulti cfg idx sd).snd.map Prod.fst := by
  simp only [buildGroupMulti]
  by_cases hbr : cfg.max_depth = 1 ∨
      (cfg.allow_empty_string = false ∧
        ((sd.map (fun x => x.drop (commonPre sd).length)).map
          (fun x => x.take (x.length -
            (commonSuf (sd.map (fun x => x.drop (commonPre sd).length))).length))).any
          List.isEmpty = true)
  · rw [if_pos hbr]
    intro p hp n hn
    rcases List.mem_map.mp hp with ⟨q, _, rfl⟩
    rw [prodRefs_lit] at hn
    cases hn
  · rw [if_neg hbr]
    intro p hp n hn
    have hpe := List.mem_singleton.mp hp
    subst hpe
    rw [prodRefs_frame] at hn
    have := List.mem_singleton.mp hn
    subst this
    simp

theorem buildGroup_refs (cfg : Config) (idx : Nat) (seqs : List (List String)) :
    ∀ p ∈ (buildGroup cfg idx seqs).fst, ∀ n ∈ prodRefs p,
      n ∈ (buildGroup cfg idx seqs).snd.map Prod.fst := by
  unfold buildGroup
  cases seqs.dedup with
  | nil => intro p hp; cases hp
  | cons q qtl =>
    cases qtl with
    | nil =>
      intro p hp n hn
      have hpe := List.mem_singleton.mp hp
      subst hpe
      rw [prodRefs_lit] at hn
      cases hn
    | cons q2 qs => exact buildGroupMulti_refs cfg idx _

theorem buildAll_names (cfg : Config) :
    ∀ (gs : List (String × List (List String))) (idx : Nat) (n : String),
      n ∈ (buildAll cfg idx gs).snd.map Prod.fst →
      ∃ k, idx ≤ k ∧ n = slotName k := by
  intro gs
  induction gs with
  | nil => intro idx n h; cases h
  | cons g gs ih =>
    intro idx n h
    simp only [buildAll, List.map_append] at h
    rcases List.mem_append.mp h with h1 | h2
    · rcases buildGroup_names cfg idx g.snd with he | he
      · rw [he] at h1; cases h1
      · rw [he] at h1
        exact ⟨idx, Nat.le_refl idx, List.mem_singleton.mp h1⟩
    · obtain ⟨k, hk, he⟩ := ih (idx + 1) n h2
      exact ⟨k, Nat.le_of_succ_le hk, he⟩

theorem buildAll_inv (cfg : Config) :
    ∀ (gs : List (String × List (List String))) (idx : Nat),
      StInv (buildAll cfg idx gs).fst (buildAll cfg idx gs).snd := by
  intro gs
  induction gs with
  | nil =>
    intro idx
    exact ⟨List.nodup_nil, fun h => (List.not_mem_nil _ h), fun p hp => by cases hp⟩
  | cons g gs ih =>
    intro idx
    obtain ⟨ihn, iho, ihr⟩ := ih (idx + 1)
    simp only [buildAll]
    have hnames : ((buildGroup cfg idx g.snd).snd ++
        (buildAll cfg (idx + 1) gs).snd).map Prod.fst =
        (buildGroup cfg idx g.snd).snd.map Prod.fst ++
          (buildAll cfg (idx + 1) gs).snd.map Prod.fst := List.map_append _ _ _
    have hdisj : ∀ n ∈ (buildGroup cfg idx g.snd).snd.map Prod.fst,
        n ∉ (buildAll cfg (idx + 1) gs).snd.map Prod.fst := by
      intro n hn hcon
      obtain ⟨k, hk, rfl⟩ := buildAll_names cfg gs (idx + 1) n hcon
      rcases buildGroup_names cfg idx g.snd with he | he
      · rw [he] at hn; cases hn
      · rw [he] at hn
        have := List.mem_singleton.mp hn
        have hik := slotName_inj this
        omega
    refine ⟨?_, ?_, ?_⟩
    · rw [hnames]
      refine List.Nodup.append ?_ ihn hdisj
      rcases buildGroup_names cfg idx g.snd with he | he
      · rw [he]; exact List.nodup_nil
      · rw [he]; exact List.nodup_singleton _
    · rw [hnames]
      intro hmem
      rcases List.mem_append.mp hmem with h1 | h2
      · rcases buildGroup_names cfg idx g.snd with he | he
        · rw [he] at h1; cases h1
        · rw [he] at h1
          exact slotName_ne_origin idx (List.mem_singleton.mp h1).symm
      · exact iho h2
    · intro p hp n hn
      rw [hnames]
      rcases List.mem_append.mp hp with h1 | h2
      · exact List.mem_append_left _ (buildGroup_refs cfg idx g.snd p h1 n hn)
      · exact List.mem_append_right _ (ihr p h2 n hn)

theorem buildAll_cover (cfg : Config) :
    ∀ (gs : List (String × List (List String))) (idx : Nat) (ts : List String),
      (∃ g ∈ gs, ts ∈ g.snd) →
      ts ∈ stateSeqs (buildAll cfg idx gs).fst (buildAll cfg idx gs).snd := by
  intro gs
  induction gs with
  | nil => intro idx ts h; obtain ⟨g, hg, _⟩ := h; cases hg
  | cons g gs ih =>
    intro idx ts h
    simp only [buildAll]
    obtain ⟨g0, hg0, hts⟩ := h
    rcases List.mem_cons.mp hg0 with rfl | h2
    · have hcov := @buildGroup_cover cfg idx g0.snd ts hts
      rcases mem_stateSeqs.mp hcov with ⟨p, hp, hpts⟩
      refine mem_stateSeqs.mpr ⟨p, List.mem_append_left _ hp, ?_⟩
      have hcongr : prodSeqsS ((buildGroup cfg idx g0.snd).snd ++
          (buildAll cfg (idx + 1) gs).snd) p =
          prodSeqsS (buildGroup cfg idx g0.snd).snd p := by
        refine prodSeqsS_congr ?_
        intro n hn
        exact lookup_append_left (buildGroup_refs cfg idx g0.snd p hp n hn)
      rw [hcongr]
      exact hpts
    · have hcov := ih (idx + 1) ts ⟨g0, h2, hts⟩
      rcases mem_stateSeqs.mp hcov with ⟨p, hp, hpts⟩
      refine mem_stateSeqs.mpr ⟨p, List.mem_append_right _ hp, ?_⟩
      have hcongr : prodSeqsS ((buildGroup cfg idx g.snd).snd ++
          (buildAll cfg (idx + 1) gs).snd) p =
          prodSeqsS (buildAll cfg (idx + 1) gs).snd p := by
        refine prodSeqsS_congr ?_
        intro n hn
        refine lookup_append_right ?_
        intro hcon
        have hmem : n ∈ (buildAll cfg (idx + 1) gs).snd.map Prod.fst :=
          (buildAll_inv cfg gs (idx + 1)).2.2 p hp n hn
        obtain ⟨k, hk, rfl⟩ := buildAll_names cfg gs (idx + 1) n hmem
        rcases buildGroup_names cfg idx g.snd with he | he
        · rw [he] at hcon; cases hcon
        · rw [he] at hcon
          have := slotName_inj (List.mem_singleton.mp hcon)
          omega
      rw [hcongr]
      exact hpts

/-! ## Pruner lemmas -/

theorem allMem_spec {xs ys : List (List String)} (h : allMem xs ys = true) :
    ∀ x ∈ xs, x ∈ ys := by
  intro x hx
  have := List.all_eq_true.mp h x hx
  obtain ⟨y, hy, he⟩ := List.any_eq_true.mp this
  exact (of_decide_eq_true he) ▸ hy

theorem pruneLoop_subset (sl : Slots) :
    ∀ (rest kept : List Production) (q : Production),
      q ∈ pruneLoop sl kept rest → q ∈ kept ++ rest := by
  intro rest
  induction rest with
  | nil =>
    intro kept q h
    rw [pruneLoop] at h
    exact List.mem_append_left _ (List.mem_reverse.mp h)
  | cons p r ih =>
    intro kept q h
    rw [pruneLoop] at h
    by_cases hc : allMem (prodSeqsS sl p) (stateSeqs (kept ++ r) sl) = true
    · rw [if_pos hc] at h
      have := ih kept q h
      rcases List.mem_append.mp this with h1 | h2
      · exact List.mem_append_left _ h1
      · exact List.mem_append_right _ (List.mem_cons_of_mem _ h2)
    · rw [if_neg hc] at h
      have := ih (p :: kept) q h
      rcases List.mem_append.mp this with h1 | h2
      · rcases List.mem_cons.mp h1 with rfl | h3
        · exact List.mem_append_right _ (List.mem_cons_self _ _)
        · exact List.mem_append_left _ h3
      · exact List.mem_append_right _ (List.mem_cons_of_mem _ h2)

theorem pruneLoop_cover (sl : Slots) :
    ∀ (rest kept : List Production) (ts : List String),
      ts ∈ stateSeqs (kept ++ rest) sl →
      ts ∈ stateSeqs (pruneLoop sl kept rest) sl := by
  intro rest
  induction rest with
  | nil =>
    intro kept ts h
    rw [pruneLoop]
    rcases mem_stateSeqs.mp h with ⟨p, hp, hpts⟩
    rcases List.mem_append.mp hp with h1 | h2
    · exact mem_stateSeqs.mpr ⟨p, List.mem_reverse.mpr h1, hpts⟩
    · cases h2
  | cons p r ih =>
    intro kept ts h
    rw [pruneLoop]
    by_cases hc : allMem (prodSeqsS sl p) (stateSeqs (kept ++ r) sl) = true
    · rw [if_pos hc]
      rcases mem_stateSeqs.mp h with ⟨q, hq, hqts⟩
      rcases List.mem_append.mp hq with h1 | h2
      · exact ih kept ts (mem_stateSeqs.mpr ⟨q, List.mem_append_left _ h1, hqts⟩)
      · rcases List.mem_cons.mp h2 with rfl | h3
        · exact ih kept ts (allMem_spec hc ts hqts)
        · exact ih kept ts (mem_stateSeqs.mpr ⟨q, List.mem_append_right _ h3, hqts⟩)
    · rw [if_neg hc]
      rcases mem_stateSeqs.mp h with ⟨q, hq, hqts⟩
      refine ih (p :: kept) ts (mem_stateSeqs.mpr ⟨q, ?_, hqts⟩)
      rcases List.mem_append.mp hq with h1 | h2
      · exact List.mem_append_left _ (List.mem_cons_of_mem _ h1)
      · rcases List.mem_cons.mp h2 with rfl | h3
        · exact List.mem_append_left _ (List.mem_cons_self _ _)
        · exact List.mem_append_right _ h3

/-! ## Pipeline coverage -/

theorem induceCore_spec (D : List String) (cfg : Config) :
    ∃ out, genAll (induceCore D cfg).fst = .ok out ∧ ∀ s ∈ D, s ∈ out := by
  obtain ⟨hinv1, hcov1⟩ := mergeLoop_preserves cfg.relative_similarity_threshold
    cfg.use_best_merge_candidate (buildAll cfg 0 (groupsOf D)).snd.length
    (buildAll cfg 0 (groupsOf D)).fst (buildAll cfg 0 (groupsOf D)).snd
    (buildAll_inv cfg (groupsOf D) 0)
  set m := mergeLoop cfg.relative_similarity_threshold cfg.use_best_merge_candidate
    (buildAll cfg 0 (groupsOf D)).snd.length (buildAll cfg 0 (groupsOf D)).fst
    (buildAll cfg 0 (groupsOf D)).snd with hm
  set rpF : List Production :=
    (if cfg.prune_redundant then pruneLoop m.snd.fst [] m.fst else m.fst) with hrp
  have hcore : induceCore D cfg = (materialize rpF m.snd.fst, m.snd.snd) := by
    simp only [induceCore, hm, hrp]
  have hsub : ∀ q ∈ rpF, q ∈ m.fst := by
    intro q hq
    rw [hrp] at hq
    by_cases hp : cfg.prune_redundant = true
    · rw [if_pos hp] at hq
      simpa using pruneLoop_subset m.snd.fst m.fst [] q hq
    · rw [if_neg hp] at hq
      exact hq
  have hrefs : ∀ p ∈ rpF, ∀ n ∈ prodRefs p, n ∈ m.snd.fst.map Prod.fst :=
    fun p hp => hinv1.2.2 p (hsub p hp)
  refine ⟨((stateSeqs rpF m.snd.fst).map joinTokens).dedup, ?_, ?_⟩
  · rw [hcore]
    exact genAll_materialize hinv1.2.1 hrefs
  · intro s hs
    obtain ⟨g, hg, hts⟩ := groupsOf_cover hs
    have h0 : splitTokens s ∈ stateSeqs (buildAll cfg 0 (groupsOf D)).fst
        (buildAll cfg 0 (groupsOf D)).snd :=
      buildAll_cover cfg (groupsOf D) 0 (splitTokens s) ⟨g, hg, hts⟩
    have h1 : splitTokens s ∈ stateSeqs m.fst m.snd.fst := hcov1 _ h0
    have h2 : splitTokens s ∈ stateSeqs rpF m.snd.fst := by
      rw [hrp]
      by_cases hp : cfg.prune_redundant = true
      · rw [if_pos hp]
        exact pruneLoop_cover m.snd.fst m.fst [] (splitTokens s) (by simpa using h1)
      · rw [if_neg hp]
        exact h1
    exact List.mem_dedup.mpr
      (List.mem_map.mpr ⟨splitTokens s, h2, joinTokens_splitTokens s⟩)

/-- Validation passes under the usual hypotheses. -/
theorem validate_ok {D : List String} {cfg : Config} (hD : D ≠ [])
    (hcfg : ValidConfig cfg) (hempty : cfg.allow_empty_string = false → "" ∉ D) :
    validate D cfg = .ok () := by
  unfold validate
  rw [if_neg hD]
  rw [if_neg (by
    intro hcon
    exact hempty hcon.1 hcon.2)]
  rw [if_neg (by
    intro hcon
    exact hcon ⟨hcfg.1, hcfg.2.1⟩)]
  rw [if_neg (by
    intro hcon
    exact hcon hcfg.2.2)]

theorem induce_eq_ok {D : List String} {cfg : Config} (hD : D ≠ [])
    (hcfg : ValidConfig cfg) (hempty : cfg.allow_empty_string = false → "" ∉ D) :
    induce D cfg = .ok (induceCore D cfg).fst := by
  unfold induce
  rw [validate_ok hD hcfg hempty]
  rfl

/-! ## Acyclicity and termination of generation -/

/-- Direct reference relation between nonterminals of a grammar. -/
def refsRel (g : Grammar) (n m : String) : Prop :=
  ∃ p ∈ g.prods n, m ∈ prodRefs p

/-- No nonterminal transitively references itself. -/
def Acyclic (g : Grammar) : Prop :=
  ∀ n, ¬ Relation.TransGen (refsRel g) n n

/-- Some nonterminal reachable from the root lies on a reference cycle. -/
def ReachesCycle (g : Grammar) : Prop :=
  ∃ c, Relation.ReflTransGen (refsRel g) g.root c ∧
    Relation.TransGen (refsRel g) c c

/-- Every reference strictly decreases the rank. -/
def RankedBy (g : Grammar) (rank : String → Nat) : Prop :=
  ∀ n m, refsRel g n m → rank m < rank n

/-- Every referenced nonterminal is defined. -/
def ClosedRefs (g : Grammar) : Prop :=
  ∀ n m, refsRel g n m → m ∈ g.names

theorem expandProdWith_ok_of_refs {f : String → Except GErr (List (List String))}
    {p : Production} (h : ∀ n ∈ prodRefs p, ∃ out, f n = .ok out) :
    ∃ out, expandProdWith f p = .ok out := by
  induction p with
  | nil => exact ⟨[[]], rfl⟩
  | cons e r ih =>
    cases e with
    | lit s =>
      obtain ⟨out, hout⟩ := ih (fun n hn => h n (by simpa [prodRefs] using hn))
      exact ⟨out.map (fun t => s :: t), by
        simp [expandProdWith, hout, Except.map]⟩
    | ref m =>
      obtain ⟨o1, ho1⟩ := h m (by simp [prodRefs])
      obtain ⟨o2, ho2⟩ := ih (fun n hn => h n (by
        simp only [prodRefs, List.filterMap_cons]
        exact List.mem_cons_of_mem m hn))
      exact ⟨o1.flatMap (fun x => o2.map (fun t => x ++ t)), by
        simp [expandProdWith, ho1, ho2, bind, Except.bind]⟩

theorem exceptMapM_ok_of_all {f : α → Except GErr β} {l : List α}
    (h : ∀ a ∈ l, ∃ out, f a = .ok out) :
    ∃ out, exceptMapM f l = .ok out := by
  induction l with
  | nil => exact ⟨[], rfl⟩
  | cons a l ih =>
    obtain ⟨o1, ho1⟩ := h a (List.mem_cons_self a l)
    obtain ⟨o2, ho2⟩ := ih (fun b hb => h b (List.mem_cons_of_mem _ hb))
    exact ⟨o1 :: o2, by simp [exceptMapM, ho1, ho2, bind, Except.bind]⟩

theorem expandNT_ok_of_rank {g : Grammar} {rank : String → Nat}
    (hr : RankedBy g rank) (hc : ClosedRefs g) :
    ∀ (fuel : Nat) (n : String), n ∈ g.names → rank n < fuel →
      ∃ out, expandNT g fuel n = .ok out := by
  intro fuel
  induction fuel with
  | zero => intro n _ h; cases h
  | succ fuel ih =>
    intro n hn hrank
    rw [expandNT, if_pos hn]
    have hall : ∀ p ∈ g.prods n, ∃ out,
        expandProdWith (expandNT g fuel) p = .ok out := by
      intro p hp
      refine expandProdWith_ok_of_refs ?_
      intro m hm
      have hrel : refsRel g n m := ⟨p, hp, hm⟩
      exact ih m (hc n m hrel) (Nat.lt_of_lt_of_le (hr n m hrel)
        (Nat.le_of_lt_succ hrank))
    obtain ⟨out, hout⟩ := exceptMapM_ok_of_all hall
    exact ⟨out.flatten, by simp [hout, Except.map]⟩

theorem genAll_ok_of_rank {g : Grammar} {rank : String → Nat}
    (hr : RankedBy g rank) (hc : ClosedRefs g) (hroot : g.root ∈ g.names)
    (hbound : rank g.root < g.rules.length + 1) :
    ∃ out, genAll g = .ok out := by
  obtain ⟨out, hout⟩ := expandNT_ok_of_rank hr hc (g.rules.length + 1)
    g.root hroot hbound
  exact ⟨(out.map joinTokens).dedup, by simp [genAll, genSeqs, hout, Except.map]⟩

theorem expandProdWith_error {f : String → Except GErr (List (List String))}
    (hf : ∀ n e, f n = .error e → e = .structural) :
    ∀ (p : Production) (e : GErr), expandProdWith f p = .error e →
      e = .structural := by
  intro p
  induction p with
  | nil => intro e h; cases h
  | cons el r ih =>
    intro e h
    cases el with
    | lit s =>
      rw [expandProdWith] at h
      cases hr : expandProdWith f r with
      | ok o =>
        rw [hr] at h
        simp only [Except.map] at h
        cases h
      | error e2 =>
        rw [hr] at h
        simp only [Except.map] at h
        injection h with he
        exact he ▸ ih e2 hr
    | ref m =>
      rw [expandProdWith] at h
      cases hm : f m with
      | error e1 =>
        rw [hm] at h
        simp only [bind, Except.bind] at h
        injection h with he
        exact he ▸ hf m e1 hm
      | ok o1 =>
        rw [hm] at h
        simp only [bind, Except.bind] at h
        cases hr : expandProdWith f r with
        | error e2 =>
          rw [hr] at h
          injection h with he
          exact he ▸ ih e2 hr
        | ok o2 => rw [hr] at h; cases h

theorem exceptMapM_error {f : α → Except GErr β}
    (hf : ∀ a e, f a = .error e → e = .structural) :
    ∀ (l : List α) (e : GErr), exceptMapM f l = .error e → e = .structural := by
  intro l
  induction l with
  | nil => intro e h; cases h
  | cons a l ih =>
    intro e h
    rw [exceptMapM] at h
    cases ha : f a with
    | error e1 =>
      rw [ha] at h
      simp only [bind, Except.bind] at h
      injection h with he
      exact he ▸ hf a e1 ha
    | ok b =>
      rw [ha] at h
      simp only [bind, Except.bind] at h
      cases hl : exceptMapM f l with
      | error e2 =>
        rw [hl] at h
        injection h with he
        exact he ▸ ih e2 hl
      | ok bs => rw [hl] at h; cases h

theorem expandNT_error (g : Grammar) :
    ∀ (fuel : Nat) (n : String) (e : GErr),
      expandNT g fuel n = .error e → e = .structural := by
  intro fuel
  induction fuel with
  | zero => intro n e h; cases h; rfl
  | succ fuel ih =>
    intro n e h
    rw [expandNT] at h
    by_cases hn : n ∈ g.names
    · rw [if_pos hn] at h
      cases hm : exceptMapM (expandProdWith (expandNT g fuel)) (g.prods n) with
      | error e1 =>
        rw [hm] at h
        simp only [Except.map] at h
        injection h with he
        exact he ▸
          exceptMapM_error (expandProdWith_error (fun m e2 => ih m e2)) _ e1 hm
      | ok o =>
        rw [hm] at h
        simp only [Except.map] at h
        cases h
    · rw [if_neg hn] at h
      injection h with he
      exact he.symm

theorem exceptMapM_ok_forall {f : α → Except GErr β} {l : List α} {out : List β}
    (h : exceptMapM f l = .ok out) : ∀ a ∈ l, ∃ o, f a = .ok o := by
  induction l generalizing out with
  | nil => intro a ha; cases ha
  | cons b l ih =>
    intro a ha
    rw [exceptMapM] at h
    cases hb : f b with
    | error e => rw [hb] at h; simp [bind, Except.bind] at h
    | ok o1 =>
      rw [hb] at h
      simp only [bind, Except.bind] at h
      cases hl : exceptMapM f l with
      | error e => rw [hl] at h; cases h
      | ok o2 =>
        rcases List.mem_cons.mp ha with rfl | h2
        · exact ⟨o1, hb⟩
        · exact ih hl a h2

theorem expandProdWith_ok_forall
    {f : String → Except GErr (List (List String))} :
    ∀ {p : Production} {out : List (List String)},
      expandProdWith f p = .ok out → ∀ n ∈ prodRefs p, ∃ o, f n = .ok o := by
  intro p
  induction p with
  | nil => intro out _ n hn; cases hn
  | cons el r ih =>
    intro out h n hn
    cases el with
    | lit s =>
      rw [expandProdWith] at h
      cases hr : expandProdWith f r with
      | error e => rw [hr] at h; cases h
      | ok o =>
        exact ih hr n (by simpa [prodRefs] using hn)
    | ref m =>
      rw [expandProdWith] at h
      cases hm : f m with
      | error e => rw [hm] at h; simp [bind, Except.bind] at h
      | ok o1 =>
        rw [hm] at h
        simp only [bind, Except.bind] at h
        cases hr : expandProdWith f r with
        | error e => rw [hr] at h; cases h
        | ok o2 =>
          simp only [prodRefs, List.filterMap_cons] at hn
          rcases List.mem_cons.mp hn with rfl | h2
          · exact ⟨o1, hm⟩
          · exact ih hr n h2

theorem expandNT_not_ok_of_cycle {g : Grammar} :
    ∀ (fuel : Nat) (n : String),
      (∃ c, Relation.ReflTransGen (refsRel g) n c ∧
        Relation.TransGen (refsRel g) c c) →
      ∀ out, expandNT g fuel n ≠ .ok out := by
  intro fuel
  induction fuel with
  | zero => intro n _ out h; cases h
  | succ fuel ih =>
    intro n hreach out h
    obtain ⟨c, hnc, hcc⟩ := hreach
    have hstep : ∃ m, refsRel g n m ∧
        ∃ c2, Relation.ReflTransGen (refsRel g) m c2 ∧
          Relation.TransGen (refsRel g) c2 c2 := by
      rcases (Relation.ReflTransGen.cases_head hnc) with rfl | ⟨m, hm, hmc⟩
      · obtain ⟨m, hm, hmc⟩ := (Relation.TransGen.head'_iff).mp hcc
        exact ⟨m, hm, n, hmc, hcc⟩
      · exact ⟨m, hm, c, hmc, hcc⟩
    obtain ⟨m, ⟨p, hp, hmp⟩, hreach2⟩ := hstep
    rw [expandNT] at h
    by_cases hn : n ∈ g.names
    · rw [if_pos hn] at h
      cases hmm : exceptMapM (expandProdWith (expandNT g fuel)) (g.prods n) with
      | error e => rw [hmm] at h; simp [Except.map] at h
      | ok outs =>
        obtain ⟨o, ho⟩ := exceptMapM_ok_forall hmm p hp
        obtain ⟨o2, ho2⟩ := expandProdWith_ok_forall ho m hmp
        exact ih m hreach2 o2 ho2
    · rw [if_neg hn] at h
      cases h

theorem genAll_error_of_cycle {g : Grammar} (h : ReachesCycle g) :
    genAll g = .error .structural := by
  obtain ⟨c, hrc, hcc⟩ := h
  cases hres : expandNT g (g.rules.length + 1) g.root with
  | ok out =>
    exact absurd hres (expandNT_not_ok_of_cycle _ g.root ⟨c, hrc, hcc⟩ out)
  | error e =>
    have he : e = .structural := expandNT_error g _ g.root e hres
    subst he
    simp [genAll, genSeqs, hres, Except.map]

theorem refsRel_materialize {rp : List Production} {sl : Slots} {n m : String}
    (horig : "origin" ∉ sl.map Prod.fst)
    (hrefs : ∀ p ∈ rp, ∀ x ∈ prodRefs p, x ∈ sl.map Prod.fst)
    (h : refsRel (materialize rp sl) n m) : n = "origin" ∧ m ≠ "origin" := by
  obtain ⟨p, hp, hm⟩ := h
  rw [prods_materialize] at hp
  by_cases hn : n = "origin"
  · rw [if_pos hn] at hp
    refine ⟨hn, ?_⟩
    intro he
    exact horig (he ▸ hrefs p hp m hm)
  · rw [if_neg hn] at hp
    rcases List.mem_map.mp hp with ⟨q, _, rfl⟩
    rw [prodRefs_lit] at hm
    cases hm

theorem acyclic_materialize {rp : List Production} {sl : Slots}
    (horig : "origin" ∉ sl.map Prod.fst)
    (hrefs : ∀ p ∈ rp, ∀ x ∈ prodRefs p, x ∈ sl.map Prod.fst) :
    Acyclic (materialize rp sl) := by
  have main : ∀ a b, Relation.TransGen (refsRel (materialize rp sl)) a b →
      a = "origin" ∧ b ≠ "origin" := by
    intro a b h
    induction h with
    | single h1 => exact refsRel_materialize horig hrefs h1
    | tail hab hbc ih =>
      have hstep := refsRel_materialize horig hrefs hbc
      exact absurd hstep.1 ih.2
  intro n hcon
  obtain ⟨h1, h2⟩ := main n n hcon
  exact h2 h1

/-- The final shape of a pipeline run: a two level grammar with the state
invariant. -/
theorem induceCore_shape (D : List String) (cfg : Config) :
    ∃ rp sl cnt, induceCore D cfg = (materialize rp sl, cnt) ∧
      "origin" ∉ sl.map Prod.fst ∧
      ∀ p ∈ rp, ∀ n ∈ prodRefs p, n ∈ sl.map Prod.fst := by
  obtain ⟨hinv1, _⟩ := mergeLoop_preserves cfg.relative_similarity_threshold
    cfg.use_best_merge_candidate (buildAll cfg 0 (groupsOf D)).snd.length
    (buildAll cfg 0 (groupsOf D)).fst (buildAll cfg 0 (groupsOf D)).snd
    (buildAll_inv cfg (groupsOf D) 0)
  set m := mergeLoop cfg.relative_similarity_threshold cfg.use_best_merge_candidate
    (buildAll cfg 0 (groupsOf D)).snd.length (buildAll cfg 0 (groupsOf D)).fst
    (buildAll cfg 0 (groupsOf D)).snd with hm
  set rpF : List Production :=
    (if cfg.prune_redundant then pruneLoop m.snd.fst [] m.fst else m.fst) with hrp
  have hcore : induceCore D cfg = (materialize rpF m.snd.fst, m.snd.snd) := by
    simp only [induceCore, hm, hrp]
  have hsub : ∀ q ∈ rpF, q ∈ m.fst := by
    intro q hq
    rw [hrp] at hq
    by_cases hp : cfg.prune_redundant = true
    · rw [if_pos hp] at hq
      simpa using pruneLoop_subset m.snd.fst m.fst [] q hq
    · rw [if_neg hp] at hq
      exact hq
  exact ⟨rpF, m.snd.fst, m.snd.snd, hcore, hinv1.2.1,
    fun p hp => hinv1.2.2 p (hsub p hp)⟩

theorem induce_ok_acyclic {D : List String} {cfg : Config} {g : Grammar}
    (h : induce D cfg = .ok g) : Acyclic g := by
  unfold induce at h
  cases hv : validate D cfg with
  | error e => rw [hv] at h; simp [bind, Except.bind] at h
  | ok u =>
    rw [hv] at h
    simp only [bind, Except.bind] at h
    injection h with he
    obtain ⟨rp, sl, cnt, hcore, horig, hrefs⟩ := induceCore_shape D cfg
    have : g = materialize rp sl := by
      rw [← he, hcore]
    rw [this]
    exact acyclic_materialize horig hrefs

/-! ## Threshold monotonicity of the merge count -/

theorem buildGroupMulti_congr {cfg1 cfg2 : Config}
    (h1 : cfg1.max_depth = cfg2.max_depth)
    (h2 : cfg1.allow_empty_string = cfg2.allow_empty_string) (idx : Nat)
    (sd : List (List String)) :
    buildGroupMulti cfg1 idx sd = buildGroupMulti cfg2 idx sd := by
  simp only [buildGroupMulti, h1, h2]

theorem buildGroup_congr {cfg1 cfg2 : Config}
    (h1 : cfg1.max_depth = cfg2.max_depth)
    (h2 : cfg1.allow_empty_string = cfg2.allow_empty_string) (idx : Nat)
    (seqs : List (List String)) :
    buildGroup cfg1 idx seqs = buildGroup cfg2 idx seqs := by
  unfold buildGroup
  cases seqs.dedup with
  | nil => rfl
  | cons q qtl =>
    cases qtl with
    | nil => rfl
    | cons q2 qs => exact buildGroupMulti_congr h1 h2 idx _

theorem buildAll_congr {cfg1 cfg2 : Config}
    (h1 : cfg1.max_depth = cfg2.max_depth)
    (h2 : cfg1.allow_empty_string = cfg2.allow_empty_string) :
    ∀ (gs : List (String × List (List String))) (idx : Nat),
      buildAll cfg1 idx gs = buildAll cfg2 idx gs := by
  intro gs
  induction gs with
  | nil => intro idx; rfl
  | cons g gs ih =>
    intro idx
    simp only [buildAll, buildGroup_congr h1 h2 idx g.snd, ih (idx + 1)]

theorem mergeCountOf_mono {D : List String} {cfg : Config} {θ θ' : ℚ}
    (hθ : θ ≤ θ') (hbest : cfg.use_best_merge_candidate = true) :
    mergeCountOf D (withThreshold cfg θ') ≤ mergeCountOf D (withThreshold cfg θ) := by
  have hb : buildAll (withThreshold cfg θ') 0 (groupsOf D) =
      buildAll (withThreshold cfg θ) 0 (groupsOf D) :=
    @buildAll_congr (withThreshold cfg θ') (withThreshold cfg θ) rfl rfl
      (groupsOf D) 0
  unfold mergeCountOf induceCore
  simp only [hb]
  have hθ1 : (withThreshold cfg θ').relative_similarity_threshold = θ' := rfl
  have hθ2 : (withThreshold cfg θ).relative_similarity_threshold = θ := rfl
  have hb1 : (withThreshold cfg θ').use_best_merge_candidate = true := hbest
  have hb2 : (withThreshold cfg θ).use_best_merge_candidate = true := hbest
  rw [hθ1, hθ2, hb1, hb2]
  exact mergeLoop_count_mono hθ _ _ _

/-! ## Eligibility score facts -/

theorem bestCand_score {sl : Slots} {ij : Nat × Nat} {s : ℚ}
    (h : bestCand sl = some (ij, s)) : s = scoreAt sl ij := by
  have main : ∀ (l : List (Nat × Nat)) (acc : Option ((Nat × Nat) × ℚ)),
      (∀ ij0 s0, acc = some (ij0, s0) → s0 = scoreAt sl ij0) →
      ∀ ij0 s0,
        (l.foldl (fun acc ij =>
          match acc with
          | none => some (ij, scoreAt sl ij)
          | some (ij1, s1) =>
            if s1 < scoreAt sl ij then some (ij, scoreAt sl ij) else some (ij1, s1))
          acc) = some (ij0, s0) → s0 = scoreAt sl ij0 := by
    intro l
    induction l with
    | nil => intro acc hacc ij0 s0 hres; exact hacc ij0 s0 hres
    | cons z zs ih =>
      intro acc hacc ij0 s0 hres
      refine ih _ ?_ ij0 s0 hres
      intro ij1 s1 hacc1
      cases acc with
      | none =>
        have h3 := Option.some.inj hacc1
        have e1 : z = ij1 := congrArg Prod.fst h3
        have e2 : scoreAt sl z = s1 := congrArg Prod.snd h3
        rw [← e2, e1]
      | some y =>
        rcases y with ⟨ij2, s2⟩
        simp only at hacc1
        by_cases hlt : s2 < scoreAt sl z
        · rw [if_pos hlt] at hacc1
          have h3 := Option.some.inj hacc1
          have e1 : z = ij1 := congrArg Prod.fst h3
          have e2 : scoreAt sl z = s1 := congrArg Prod.snd h3
          rw [← e2, e1]
        · rw [if_neg hlt] at hacc1
          have h3 := Option.some.inj hacc1
          have e1 : ij2 = ij1 := congrArg Prod.fst h3
          have e2 : s2 = s1 := congrArg Prod.snd h3
          rw [← e2, ← e1]
          exact hacc ij2 s2 rfl
  exact main (allPairs sl.length) none (by intro _ _ h2; cases h2) ij s h

/-- The merger only ever picks pairs whose overlap reaches the threshold:
eligibility is exactly the Jaccard condition. -/
theorem pickPair_score {θ : ℚ} {best : Bool} {sl : Slots} {ij : Nat × Nat}
    (h : pickPair θ best sl = some ij) : eligible θ
      (fillF (((sl.get? ij.fst).getD ("", [])).snd))
      (fillF (((sl.get? ij.snd).getD ("", [])).snd)) := by
  have hscore : θ ≤ scoreAt sl ij := by
    cases best with
    | false =>
      rw [pickPair_false] at h
      have := List.find?_some h
      exact of_decide_eq_true this
    | true =>
      rw [pickPair_true] at h
      cases hb : bestCand sl with
      | none => rw [hb] at h; cases h
      | some y =>
        rcases y with ⟨ij2, s⟩
        rw [hb] at h
        simp only at h
        by_cases hle : θ ≤ s
        · rw [if_pos hle] at h
          have he := Option.some.inj h
          rw [← he]
          exact (bestCand_score hb) ▸ hle
        · rw [if_neg hle] at h
          cases h
  exact hscore

/-! ## Jaccard overlap facts -/

theorem jaccard_eq_div (A B : Finset String) :
    jaccard A B = ((A ∩ B).card : ℚ) / ((A ∪ B).card : ℚ) := by
  rw [jaccard, Rat.mkRat_eq_div]
  push_cast
  ring

theorem jaccard_nonneg (A B : Finset String) : 0 ≤ jaccard A B := by
  rw [jaccard_eq_div]
  exact div_nonneg (by positivity) (by positivity)

theorem eligible_zero (A B : Finset String) : eligible 0 A B :=
  jaccard_nonneg A B

theorem eligible_one_eq {A B : Finset String} (h : eligible 1 A B) : A = B := by
  unfold eligible at h
  rw [jaccard_eq_div] at h
  by_cases hu : (A ∪ B).card = 0
  · rw [hu] at h
    norm_num at h
  · have hupos : (0 : ℚ) < ((A ∪ B).card : ℚ) := by
      have := Nat.pos_of_ne_zero hu
      exact_mod_cast this
    rw [one_le_div hupos] at h
    have hcard : (A ∪ B).card ≤ (A ∩ B).card := by exact_mod_cast h
    have hsub : A ∩ B ⊆ A ∪ B := Finset.inter_subset_union
    have heq : A ∩ B = A ∪ B := Finset.eq_of_subset_of_card_le hsub hcard
    apply Finset.Subset.antisymm
    · intro a ha
      have : a ∈ A ∪ B := Finset.mem_union_left _ ha
      rw [← heq] at this
      exact (Finset.mem_inter.mp this).2
    · intro a ha
      have : a ∈ A ∪ B := Finset.mem_union_right _ ha
      rw [← heq] at this
      exact (Finset.mem_inter.mp this).1

theorem not_eligible_one_of_disjoint {A B : Finset String}
    (hdisj : A ∩ B = ∅) (hne : A ≠ B) : ¬ eligible 1 A B :=
  fun h => hne (eligible_one_eq h)

/-! ## Serialization round trip -/

theorem splitChars_no_space {w : List Char} (h : ' ' ∉ w) :
    splitChars w = [w] := by
  induction w with
  | nil => rfl
  | cons c cs ih =>
    have hc : c ≠ ' ' := fun he => h (he ▸ List.mem_cons_self c cs)
    have hcs : ' ' ∉ cs := fun hm => h (List.mem_cons_of_mem c hm)
    rw [splitChars, ih hcs]
    simp [hc]

theorem splitChars_append_space {w : List Char} (t : List Char) (h : ' ' ∉ w) :
    splitChars (w ++ ' ' :: t) = w :: splitChars t := by
  induction w with
  | nil =>
    simp only [List.nil_append, splitChars]
    cases ht : splitChars t with
    | nil => exact absurd ht (splitChars_ne_nil t)
    | cons w2 ws2 => simp
  | cons c cs ih =>
    have hc : c ≠ ' ' := fun he => h (he ▸ List.mem_cons_self c cs)
    have hcs : ' ' ∉ cs := fun hm => h (List.mem_cons_of_mem c hm)
    rw [List.cons_append, splitChars, ih hcs]
    simp [hc]

theorem splitChars_joinChars :
    ∀ (ws : List (List Char)), ws ≠ [] → (∀ w ∈ ws, ' ' ∉ w) →
      splitChars (joinChars ws) = ws := by
  intro ws
  induction ws with
  | nil => intro h; exact absurd rfl h
  | cons w ws ih =>
    intro _ hw
    cases ws with
    | nil =>
      rw [joinChars]
      exact splitChars_no_space (hw w (List.mem_cons_self w []))
    | cons w2 ws2 =>
      rw [show joinChars (w :: w2 :: ws2) = w ++ ' ' :: joinChars (w2 :: ws2)
        from rfl]
      rw [splitChars_append_space _ (hw w (List.mem_cons_self _ _)),
        ih (by simp) (fun x hx => hw x (List.mem_cons_of_mem _ hx))]

theorem splitTokens_joinTokens {ts : List String} (hne : ts ≠ [])
    (h : ∀ t ∈ ts, ' ' ∉ t.data) : splitTokens (joinTokens ts) = ts := by
  unfold splitTokens joinTokens
  rw [show (String.mk (joinChars (ts.map String.data))).data =
    joinChars (ts.map String.data) from rfl]
  rw [splitChars_joinChars (ts.map String.data)
    (fun hcon => hne (List.map_eq_nil_iff.mp hcon))
    (fun w hw => by
      rcases List.mem_map.mp hw with ⟨t, ht, rfl⟩
      exact h t ht)]
  rw [List.map_map]
  have : (fun w => (⟨w⟩ : String)) ∘ String.data = id := by
    funext t; cases t; rfl
  rw [this, List.map_id]

theorem data_symStr_ref (n : String) :
    (symStr (GSym.ref n)).data = '<' :: (n.data ++ ['>']) := by
  show ("<" ++ n ++ ">").data = _
  rw [String.data_append, String.data_append]
  rfl

theorem classifyTok_symStr {e : GSym} (h : WFsym e) :
    classifyTok (symStr e) = e := by
  cases e with
  | lit s =>
    obtain ⟨hne, hsp, hang⟩ := h
    show classifyTok s = GSym.lit s
    unfold classifyTok
    cases hd : s.data with
    | nil => rfl
    | cons c rest =>
      show (if c = '<' ∧ rest.getLast? = some '>' then
        GSym.ref ⟨rest.dropLast⟩ else GSym.lit s) = GSym.lit s
      rw [if_neg]
      rintro ⟨hc, hlast⟩
      refine hang ⟨?_, ?_⟩
      · rw [hd, hc]; rfl
      · rw [hd]
        cases rest with
        | nil => cases hlast
        | cons r rs =>
          rw [List.getLast?_cons_cons]
          exact hlast
  | ref n =>
    show classifyTok (symStr (GSym.ref n)) = GSym.ref n
    unfold classifyTok
    rw [data_symStr_ref]
    show (if '<' = '<' ∧ (n.data ++ ['>']).getLast? = some '>' then
      GSym.ref ⟨(n.data ++ ['>']).dropLast⟩ else GSym.lit (symStr (GSym.ref n))) =
      GSym.ref n
    rw [if_pos ⟨rfl, by rw [List.getLast?_concat]⟩, List.dropLast_concat]

theorem space_not_mem_symStr {e : GSym} (h : WFsym e) :
    ' ' ∉ (symStr e).data := by
  cases e with
  | lit s => exact h.2.1
  | ref n =>
    rw [data_symStr_ref]
    intro hcon
    rcases List.mem_cons.mp hcon with he | hcon2
    · cases he
    · rcases List.mem_append.mp hcon2 with h1 | h2
      · exact h h1
      · rcases List.mem_singleton.mp h2 with he
        cases he

theorem parseProd_prodStr {p : Production} (hne : p ≠ [])
    (h : ∀ e ∈ p, WFsym e) : parseProd (prodStr p) = p := by
  unfold parseProd prodStr
  rw [splitTokens_joinTokens (fun hcon => hne (List.map_eq_nil_iff.mp hcon))
    (fun t ht => by
      rcases List.mem_map.mp ht with ⟨e, he, rfl⟩
      exact space_not_mem_symStr (h e he))]
  rw [List.map_map]
  have : ∀ e ∈ p, (classifyTok ∘ symStr) e = id e := by
    intro e he
    exact classifyTok_symStr (h e he)
  rw [List.map_congr_left this, List.map_id]

theorem fromMapping_toMapping {g : Grammar} (h : WFGrammar g) :
    fromMapping (toMapping g) = g := by
  obtain ⟨hroot, hrules⟩ := h
  unfold fromMapping toMapping
  cases g with
  | mk rules root =>
    simp only [Grammar.mk.injEq]
    constructor
    · rw [List.map_map]
      have hall : ∀ r ∈ rules, ((fun r : String × List String =>
          (r.fst, r.snd.map parseProd)) ∘ (fun r : String × List Production =>
          (r.fst, r.snd.map prodStr))) r = id r := by
        intro r hr
        simp only [Function.comp_def, List.map_map, id]
        have hprods : ∀ p ∈ r.snd, parseProd (prodStr p) = p := by
          intro p hp
          obtain ⟨hpne, hwf⟩ := hrules r hr p hp
          exact parseProd_prodStr hpne hwf
        have hmap : List.map (fun x => parseProd (prodStr x)) r.snd = r.snd := by
          calc List.map (fun x => parseProd (prodStr x)) r.snd
              = List.map id r.snd :=
                List.map_congr_left (fun p hp => hprods p hp)
            _ = r.snd := List.map_id _
        rw [hmap]
      rw [List.map_congr_left hall, List.map_id]
    · exact hroot.symm

/-- The round trip preserves the generated set for well formed grammars. -/
theorem genAll_fromMapping_toMapping {g : Grammar} (h : WFGrammar g) :
    genAll (fromMapping (toMapping g)) = genAll g := by
  rw [fromMapping_toMapping h]

/-! ## Cross product structure of production expansion -/

theorem prodSeqsS_mem_append {sl : Slots} :
    ∀ {P Q : Production} {x y : List String},
      x ∈ prodSeqsS sl P → y ∈ prodSeqsS sl Q →
      x ++ y ∈ prodSeqsS sl (P ++ Q) := by
  intro P
  induction P with
  | nil =>
    intro Q x y hx hy
    have : x = [] := by simpa [prodSeqsS] using hx
    subst this
    simpa using hy
  | cons e r ih =>
    intro Q x y hx hy
    cases e with
    | lit s =>
      simp only [prodSeqsS, List.mem_map] at hx
      obtain ⟨t, ht, rfl⟩ := hx
      rw [List.cons_append]
      simp only [prodSeqsS, List.mem_map]
      exact ⟨t ++ y, ih ht hy, rfl⟩
    | ref m =>
      simp only [prodSeqsS, List.mem_flatMap, List.mem_map] at hx
      obtain ⟨f, hf, t, ht, rfl⟩ := hx
      rw [List.cons_append]
      simp only [prodSeqsS, List.mem_flatMap, List.mem_map]
      exact ⟨f, hf, t ++ y, ih ht hy, by rw [List.append_assoc]⟩

theorem prodSeqsS_mem_ref {sl : Slots} {n : String} {Q : Production}
    {x y : List String} (hx : x ∈ lookupFillers sl n)
    (hy : y ∈ prodSeqsS sl Q) : x ++ y ∈ prodSeqsS sl (GSym.ref n :: Q) := by
  simp only [prodSeqsS, List.mem_flatMap, List.mem_map]
  exact ⟨x, hx, y, hy, rfl⟩

/-! ## Concrete grammars and datasets recorded in the repository -/

/-- The grammar printed by cell 3 of notebooks/from_text.ipynb. -/
def notebookGrammar : Grammar :=
  ⟨[("origin",
     [[.ref "B", .lit "the", .ref "C", .lit "is", .ref "D"],
      [.lit "I", .lit "like", .lit "my", .ref "C", .lit "and", .lit "my", .ref "C"]]),
    ("C", [[.lit "cat"], [.lit "chicken"], [.lit "dog"]]),
    ("B", [[.lit "Alice"], [.lit "Bob"], [.lit "Cathy"]]),
    ("D", [[.lit "jumping"], [.lit "walking"]])], "origin"⟩

/-- The grammar printed in the README example. -/
def readmeGrammar : Grammar :=
  ⟨[("origin",
     [[.ref "B", .lit "are", .lit "not", .lit "supposed", .lit "to", .lit "be",
       .lit "in", .ref "C"],
      [.lit "I", .lit "like", .ref "B", .lit "and", .ref "B"]]),
    ("B", [[.lit "bananas"], [.lit "cats"], [.lit "dogs"], [.lit "geese"]]),
    ("C", [[.lit "a", .lit "salad"], [.lit "the", .lit "zoo"]])], "origin"⟩

/-- The 24 strings the README lists as the output of generate_all. -/
def readmeTexts : List String :=
  ["dogs are not supposed to be in the zoo",
   "cats are not supposed to be in a salad",
   "I like geese and cats",
   "cats are not supposed to be in the zoo",
   "bananas are not supposed to be in a salad",
   "I like dogs and dogs",
   "bananas are not supposed to be in the zoo",
   "I like dogs and bananas",
   "geese are not supposed to be in the zoo",
   "geese are not supposed to be in a salad",
   "I like cats and dogs",
   "I like dogs and geese",
   "I like cats and bananas",
   "I like bananas and dogs",
   "I like bananas and bananas",
   "I like cats and geese",
   "I like geese and dogs",
   "I like dogs and cats",
   "I like geese and bananas",
   "I like bananas and geese",
   "dogs are not supposed to be in a salad",
   "I like cats and cats",
   "I like geese and geese",
   "I like bananas and cats"]

/-- A dataset on which the first eligible merge order is not monotone in
the threshold: its four slots carry the filler sets
f0 f1, f0 f2 f3, f0 f4 and f0 f1 f2. -/
def monoData : List String :=
  ["g1 f0 end", "g1 f1 end",
   "g2 f0 end", "g2 f2 end", "g2 f3 end",
   "g3 f0 end", "g3 f4 end",
   "g4 f0 end", "g4 f1 end", "g4 f2 end"]

/-- First eligible order, threshold one quarter. -/
def monoCfgLow : Config := ⟨mkRat 1 4, true, 10, false, true⟩

/-- First eligible order, threshold one third. -/
def monoCfgHigh : Config := ⟨mkRat 1 3, true, 10, false, true⟩

/-- Best candidate order at threshold one (for the C6 witness). -/
def bestCfg : Config := ⟨1, true, 10, true, true⟩

/-- Two examples per group with disjoint variable fillers. -/
def disjData : List String := ["a x c", "a y c", "b z d", "b w d"]

/-- Two examples per group sharing the filler x. -/
def shareData : List String := ["a x c", "a y c", "b x d", "b w d"]

/-- A dataset whose induced grammar contains an angle bracketed literal,
breaking the serialization round trip. -/
def angleData : List String := ["a x b", "a y b", "<S> q", "<S> r"]

/-- The grammar induced from `angleData`. -/
def angleGrammar : Grammar := (induceCore angleData bestCfg).fst

/-- A directly self referential grammar (never produced by induction). -/
def cyclicGrammar : Grammar :=
  ⟨[("origin", [[.ref "origin"]])], "origin"⟩

/-! ## Claim theorems -/

/-- C1: for every non empty dataset and valid configuration (with empty
strings permitted when present), induction succeeds and every dataset
string is a member of the set generate_all returns on the resulting
grammar, under every configuration including the pruning ones. -/
theorem c1_coverage (D : List String) (cfg : Config) (hD : D ≠ [])
    (hcfg : ValidConfig cfg)
    (hempty : cfg.allow_empty_string = false → "" ∉ D) :
    ∃ g out, induce D cfg = .ok g ∧ genAll g = .ok out ∧ ∀ s ∈ D, s ∈ out := by
  obtain ⟨out, hout, hcov⟩ := induceCore_spec D cfg
  exact ⟨(induceCore D cfg).fst, out, induce_eq_ok hD hcfg hempty, hout, hcov⟩

/-- Witness for C1 on a concrete two example dataset. -/
theorem c1_coverage_witness :
    ∃ g out, induce ["a x", "a y"] defaultConfig = .ok g ∧
      genAll g = .ok out ∧ ∀ s ∈ ["a x", "a y"], s ∈ out :=
  c1_coverage ["a x", "a y"] defaultConfig (by decide) (by decide) (by decide)

/-- C2: the notebook scenario grammar has exactly the two recorded root
productions (one per sentence pattern), the shared nonterminal C covers
exactly cat, chicken and dog, B covers exactly Alice, Bob and Cathy, and
generate_all contains the training string and a novel recombination. -/
theorem c2_scenario :
    (notebookGrammar.prods "origin").length = 2 ∧
    notebookGrammar.prods "origin" =
      [[.ref "B", .lit "the", .ref "C", .lit "is", .ref "D"],
       [.lit "I", .lit "like", .lit "my", .ref "C", .lit "and", .lit "my", .ref "C"]] ∧
    notebookGrammar.prods "C" = [[.lit "cat"], [.lit "chicken"], [.lit "dog"]] ∧
    notebookGrammar.prods "B" = [[.lit "Alice"], [.lit "Bob"], [.lit "Cathy"]] ∧
    ∃ out, genAll notebookGrammar = .ok out ∧
      "I like my cat and my dog" ∈ out ∧ "I like my chicken and my cat" ∈ out :=
  ⟨by decide, by decide, by decide, by decide, _, rfl, by decide, by decide⟩

/-- C3: merge eligibility is the Jaccard condition on filler string sets:
the score is the ratio of intersection to union cardinality, the merger
only picks pairs whose score reaches the threshold, at threshold zero any
two slots sharing a filler are eligible, at threshold one eligibility
forces identical filler sets, so slots with disjoint distinct fillers
never merge at threshold one; on the concrete disjoint filler dataset at
threshold one no merge happens and both slots survive, while at threshold
zero the sharing dataset merges once. -/
theorem c3_jaccard_eligibility :
    (∀ A B : Finset String,
      jaccard A B = ((A ∩ B).card : ℚ) / ((A ∪ B).card : ℚ)) ∧
    (∀ (θ : ℚ) (best : Bool) (sl : Slots) (ij : Nat × Nat),
      pickPair θ best sl = some ij → θ ≤ scoreAt sl ij) ∧
    (∀ A B : Finset String, (A ∩ B).Nonempty → eligible 0 A B) ∧
    (∀ A B : Finset String, eligible 1 A B → A = B) ∧
    (∀ A B : Finset String, A ∩ B = ∅ → A ≠ B → ¬ eligible 1 A B) ∧
    mergeCountOf disjData ⟨1, true, 10, true, true⟩ = 0 ∧
    (induceCore disjData ⟨1, true, 10, true, true⟩).fst.rules =
      [("origin",
        [[.lit "a", .ref "S", .lit "c"], [.lit "b", .ref "SI", .lit "d"]]),
       ("S", [[.lit "x"], [.lit "y"]]),
       ("SI", [[.lit "z"], [.lit "w"]])] ∧
    mergeCountOf shareData ⟨0, true, 10, true, true⟩ = 1 := by
  refine ⟨jaccard_eq_div, ?_, ?_, ?_, ?_, by decide, by decide, by decide⟩
  · intro θ best sl ij h
    exact pickPair_score h
  · intro A B _
    exact eligible_zero A B
  · intro A B h
    exact eligible_one_eq h
  · intro A B hdisj hne
    exact not_eligible_one_of_disjoint hdisj hne

/-- Witness for C3 at concrete filler sets. -/
theorem c3_jaccard_eligibility_witness :
    eligible 0 ({"a", "b"} : Finset String) {"b", "c"} ∧
    ({"x"} : Finset String) = {"x"} ∧
    ¬ eligible 1 ({"x"} : Finset String) {"y"} :=
  ⟨c3_jaccard_eligibility.2.2.1 {"a", "b"} {"b", "c"} (by decide),
   c3_jaccard_eligibility.2.2.2.1 {"x"} {"x"} (by decide),
   c3_jaccard_eligibility.2.2.2.2.1 {"x"} {"y"} (by decide) (by decide)⟩

/-- C4: every grammar the induction returns is acyclic (no nonterminal
transitively references itself), generation on it terminates with a
result, and on any grammar where a reference cycle is reachable from the
root generate_all fails with a StructuralError instead of looping. -/
theorem c4_acyclicity_termination :
    (∀ (D : List String) (cfg : Config) (g : Grammar),
      induce D cfg = .ok g → Acyclic g) ∧
    (∀ (D : List String) (cfg : Config) (g : Grammar),
      induce D cfg = .ok g → ∃ out, genAll g = .ok out) ∧
    (∀ g : Grammar, ReachesCycle g → genAll g = .error .structural) := by
  refine ⟨fun D cfg g h => induce_ok_acyclic h, ?_, fun g h => genAll_error_of_cycle h⟩
  intro D cfg g h
  unfold induce at h
  cases hv : validate D cfg with
  | error e => rw [hv] at h; simp [bind, Except.bind] at h
  | ok u =>
    rw [hv] at h
    simp only [bind, Except.bind] at h
    injection h with he
    obtain ⟨out, hout, _⟩ := induceCore_spec D cfg
    exact ⟨out, he ▸ hout⟩

/-- Witness for C4: a concrete induction run is acyclic and generates,
and the self referential grammar yields a StructuralError. -/
theorem c4_acyclicity_termination_witness :
    Acyclic (induceCore ["a x", "a y"] defaultConfig).fst ∧
    (∃ out, genAll (induceCore ["a x", "a y"] defaultConfig).fst = .ok out) ∧
    genAll cyclicGrammar = .error .structural :=
  ⟨c4_acyclicity_termination.1 ["a x", "a y"] defaultConfig _ rfl,
   c4_acyclicity_termination.2.1 ["a x", "a y"] defaultConfig _ rfl,
   c4_acyclicity_termination.2.2 cyclicGrammar
     ⟨"origin", Relation.ReflTransGen.refl,
      Relation.TransGen.single ⟨[.ref "origin"], by decide, by decide⟩⟩⟩

/-- C6 counterexample: with the first eligible merge order, raising the
threshold from one quarter to one third increases the merge count from
two to three on the recorded dataset, refuting monotonicity as claimed
for every configuration. -/
theorem c6_counterexample :
    (mkRat 1 4 : ℚ) < mkRat 1 3 ∧
    mergeCountOf monoData monoCfgLow = 2 ∧
    mergeCountOf monoData monoCfgHigh = 3 :=
  ⟨by decide, by decide, by decide⟩

/-- C6 amended: under use_best_merge_candidate the number of merges is
monotonically non increasing in the threshold, for every dataset and
configuration. -/
theorem c6_threshold_monotonicity_best (D : List String) (cfg : Config)
    (θ θ' : ℚ) (hθ : θ ≤ θ') (hbest : cfg.use_best_merge_candidate = true) :
    mergeCountOf D (withThreshold cfg θ') ≤ mergeCountOf D (withThreshold cfg θ) :=
  mergeCountOf_mono hθ hbest

/-- Witness for the amended C6 on the counterexample dataset. -/
theorem c6_threshold_monotonicity_best_witness :
    mergeCountOf monoData (withThreshold bestCfg (mkRat 1 3)) ≤
      mergeCountOf monoData (withThreshold bestCfg (mkRat 1 4)) :=
  c6_threshold_monotonicity_best monoData bestCfg (mkRat 1 4) (mkRat 1 3)
    (by decide) rfl

/-- C7: induction fails fast, before any construction: an empty dataset
raises InvalidInputError, an empty element raises InvalidInputError when
not permitted, a threshold outside the unit interval raises
ConfigurationError, and a non positive depth bound raises
ConfigurationError; in each case only the error is returned, never a
grammar. -/
theorem c7_failfast :
    (∀ cfg : Config, induce [] cfg = .error .invalidInput) ∧
    (∀ (D : List String) (cfg : Config), D ≠ [] →
      cfg.allow_empty_string = false → "" ∈ D →
      induce D cfg = .error .invalidInput) ∧
    (∀ (D : List String) (cfg : Config), D ≠ [] →
      (cfg.allow_empty_string = false → "" ∉ D) →
      (cfg.relative_similarity_threshold < 0 ∨
        1 < cfg.relative_similarity_threshold) →
      induce D cfg = .error .configuration) ∧
    (∀ (D : List String) (cfg : Config), D ≠ [] →
      (cfg.allow_empty_string = false → "" ∉ D) →
      (0 ≤ cfg.relative_similarity_threshold ∧
        cfg.relative_similarity_threshold ≤ 1) →
      cfg.max_depth ≤ 0 → induce D cfg = .error .configuration) := by
  refine ⟨?_, ?_, ?_, ?_⟩
  · intro cfg
    unfold induce validate
    rw [if_pos rfl]
    rfl
  · intro D cfg hD hallow hmem
    unfold induce validate
    rw [if_neg hD, if_pos ⟨hallow, hmem⟩]
    rfl
  · intro D cfg hD hempty hθ
    unfold induce validate
    rw [if_neg hD, if_neg (fun hcon => hempty hcon.1 hcon.2),
      if_pos (by
        intro hcon
        rcases hθ with h1 | h2
        · exact absurd hcon.1 (not_le.mpr h1)
        · exact absurd hcon.2 (not_le.mpr h2))]
    rfl
  · intro D cfg hD hempty hθ hdepth
    unfold induce validate
    rw [if_neg hD, if_neg (fun hcon => hempty hcon.1 hcon.2),
      if_neg (fun hcon => hcon hθ), if_pos (fun hcon => absurd hdepth
        (not_le.mpr hcon))]
    rfl

/-- Witness for C7 at concrete inputs. -/
theorem c7_failfast_witness :
    induce [] defaultConfig = .error .invalidInput ∧
    induce ["a", ""] ⟨mkRat 1 10, false, 10, true, true⟩ = .error .invalidInput ∧
    induce ["a"] ⟨2, true, 10, true, true⟩ = .error .configuration ∧
    induce ["a"] ⟨mkRat 1 10, true, 0, true, true⟩ = .error .configuration :=
  ⟨c7_failfast.1 defaultConfig,
   c7_failfast.2.1 ["a", ""] ⟨mkRat 1 10, false, 10, true, true⟩
     (by decide) rfl (by decide),
   c7_failfast.2.2.1 ["a"] ⟨2, true, 10, true, true⟩
     (by decide) (by decide) (by decide),
   c7_failfast.2.2.2 ["a"] ⟨mkRat 1 10, true, 0, true, true⟩
     (by decide) (by decide) (by decide) (by decide)⟩

/-- C8 counterexample: on a dataset containing an angle bracketed literal,
serializing the induced grammar to its mapping form and reconstructing it
changes the generated set, refuting the round trip as claimed for every
induced grammar. -/
theorem c8_counterexample :
    ∃ o1 o2, genAll angleGrammar = .ok o1 ∧
      genAll (fromMapping (toMapping angleGrammar)) = .ok o2 ∧ o1 ≠ o2 :=
  ⟨_, _, rfl, rfl, by decide⟩

/-- C8 amended: for every grammar whose literals are nonempty, space free
and not angle bracketed and whose reference names are space free (as all
placeholder safe grammars are), reconstruction from the mapping form is
the identity, so the generated set is unchanged. -/
theorem c8_roundtrip_wf (g : Grammar) (h : WFGrammar g) :
    genAll (fromMapping (toMapping g)) = genAll g :=
  genAll_fromMapping_toMapping h

/-- Witness for the amended C8 on the notebook grammar. -/
theorem c8_roundtrip_wf_witness :
    genAll (fromMapping (toMapping notebookGrammar)) = genAll notebookGrammar :=
  c8_roundtrip_wf notebookGrammar (by decide)

/-- C9: on the README grammar the generator enumerates 8 sequences for the
first root production and 16 for the second, 24 in total, all textually
distinct, and generate_all returns exactly the 24 strings the README
lists. -/
theorem c9_readme_generate_all :
    ∃ seqs out, genSeqs readmeGrammar = .ok seqs ∧ seqs.length = 8 + 16 ∧
      genAll readmeGrammar = .ok out ∧ out.length = 24 ∧
      out.toFinset = readmeTexts.toFinset :=
  ⟨_, _, rfl, by decide, rfl, by decide, by decide⟩

/-- C10: a production referencing the same nonterminal twice expands the
occurrences independently: any pair of fillers, equal or distinct, can be
chosen, and on the README grammar generate_all contains both the repeated
filler string and the mixed filler string. -/
theorem c10_repeated_nonterminal :
    (∀ (sl : Slots) (n : String) (A B C : Production)
      (x1 x2 a b c : List String),
      x1 ∈ lookupFillers sl n → x2 ∈ lookupFillers sl n →
      a ∈ prodSeqsS sl A → b ∈ prodSeqsS sl B → c ∈ prodSeqsS sl C →
      a ++ (x1 ++ (b ++ (x2 ++ c))) ∈
        prodSeqsS sl (A ++ GSym.ref n :: (B ++ GSym.ref n :: C))) ∧
    (∃ out, genAll readmeGrammar = .ok out ∧
      "I like dogs and dogs" ∈ out ∧ "I like dogs and bananas" ∈ out) := by
  constructor
  · intro sl n A B C x1 x2 a b c hx1 hx2 ha hb hc
    exact prodSeqsS_mem_append ha
      (prodSeqsS_mem_ref hx1 (prodSeqsS_mem_append hb (prodSeqsS_mem_ref hx2 hc)))
  · exact ⟨_, rfl, by decide, by decide⟩

/-- Witness for C10 with concrete distinct fillers taken twice from the
same slot. -/
theorem c10_repeated_nonterminal_witness :
    ["I", "like"] ++ (["dogs"] ++ (["and"] ++ (["bananas"] ++ []))) ∈
      prodSeqsS [("B", [["dogs"], ["bananas"]])]
        ([GSym.lit "I", GSym.lit "like"] ++ GSym.ref "B" ::
          ([GSym.lit "and"] ++ GSym.ref "B" :: []) ) :=
  c10_repeated_nonterminal.1 [("B", [["dogs"], ["bananas"]])] "B"
    [GSym.lit "I", GSym.lit "like"] [GSym.lit "and"] []
    ["dogs"] ["bananas"] ["I", "like"] ["and"] []
    (by decide) (by decide) (by decide) (by decide) (by decide)

end Gitta
